import Mathlib

/-!
Verification of the chess strategy-evaluation scripts
(`Assignment-1-Chess/ChatGPT-4o-Version/main.py` and
`Assignment-1-Chess/GoogleSearch-Version/main.py`).

The rules engine (`python-chess`) is an external collaborator; it is
modelled by the abstract `Game` structure below, whose `Prop` fields are
exactly the guarantees of the Position contract (reversible push/pop,
no legal moves implies game over, insufficient material excludes mate).
Scores carry the `±inf` sentinels of the Python code via
`WithBot (WithTop ℚ)`.
-/

/-- Scores as used by the Python code: rationals extended with the
`-inf` / `+inf` sentinels (the numpy and float infinities). -/
abbrev Score : Type := WithBot (WithTop ℚ)

/-- Embed a finite numeric value into `Score`. -/
def sval (q : ℚ) : Score := ((q : WithTop ℚ) : Score)

theorem sval_lt_top (q : ℚ) : sval q < ⊤ := by
  have h : ((q : WithTop ℚ) : Score) < ((⊤ : WithTop ℚ) : Score) :=
    WithBot.coe_lt_coe.mpr (WithTop.coe_lt_top q)
  simpa [sval] using h

theorem bot_lt_sval (q : ℚ) : (⊥ : Score) < sval q := WithBot.bot_lt_coe _

/-- Piece kinds of the rules collaborator (`chess.PieceType`). -/
inductive PieceType : Type
  | pawn | knight | bishop | rook | queen | king
deriving DecidableEq, Repr

/-- All piece kinds, in the order of the Python value tables. -/
def PieceType.all : List PieceType :=
  [.pawn, .knight, .bishop, .rook, .queen, .king]

/-- The abstract Position contract of the external rules engine
(`python-chess` board).  Boolean `turn`/colour follows the library:
`true` is White, `false` is Black. -/
structure Game (P M : Type) where
  legalMoves : P → List M
  push : P → M → P
  pop : P → P
  turn : P → Bool
  inCheck : P → Bool
  insufficientMaterial : P → Bool
  canClaimFiftyMoves : P → Bool
  canClaimThreefold : P → Bool
  isGameOver : P → Bool
  givesCheck : P → M → Bool
  isCapture : P → M → Bool
  pieceAt : P → Fin 64 → Option (PieceType × Bool)
  pieces : P → PieceType → Bool → Nat
  hasCastlingRights : P → Bool → Bool
  moveStack : P → List M
  uci : M → String
  fromUci : String → M
  fullmoveNumber : P → Nat
  resultStr : P → String
  resultClaimDraw : P → String
  pop_push : ∀ p m, pop (push p m) = p
  no_moves_over : ∀ p, legalMoves p = [] → isGameOver p = true
  insufficient_not_mate :
    ∀ p, insufficientMaterial p = true → inCheck p = true → legalMoves p ≠ []

/-- The collaborator test `board.is_checkmate()`: in check with no legal
moves. -/
def Game.isCheckmate {P M : Type} (g : Game P M) (p : P) : Bool :=
  g.inCheck p && (g.legalMoves p).isEmpty

/-- The collaborator test `board.is_stalemate()`: not in check, no legal
moves. -/
def Game.isStalemate {P M : Type} (g : Game P M) (p : P) : Bool :=
  !g.inCheck p && (g.legalMoves p).isEmpty

/-- Model of `random.choice(seq)`: pick the element selected by the injected
entropy `r`; raises (`.error`) on an empty sequence, exactly like the
Python function. -/
def pyChoice {α : Type} : List α → Nat → Except Unit α
  | [], _ => .error ()
  | x :: xs, r => .ok ((x :: xs).get ⟨r % (x :: xs).length, Nat.mod_lt _ (Nat.succ_pos _)⟩)

/-- Stable descending insertion used to model the Python call
`sorted(key=..., reverse=True)`: an element goes after all earlier
elements whose key is at least as large. -/
def insertDesc {M : Type} (key : M → Nat) (m : M) : List M → List M
  | [] => [m]
  | x :: xs => if key x < key m then m :: x :: xs else x :: insertDesc key m xs

/-- The Python call `sorted(l, key=key, reverse=True)` (stable, descending). -/
def sortDesc {M : Type} (key : M → Nat) (l : List M) : List M :=
  l.foldl (fun acc m => insertDesc key m acc) []

namespace Chat

/-- The `opening_book` of the ChatGPT-4o variant. -/
def opening_book : List (String × List String) :=
  [("e2e4", ["e7e5", "c7c5", "e7e6", "c7c6"]),
   ("d2d4", ["d7d5", "g8f6", "e7e6"]),
   ("c2c4", ["e7e5", "c7c5", "g8f6"]),
   ("g1f3", ["d7d5", "g8f6", "c7c5"])]

/-- The hard-coded first-move list of `get_opening_move`. -/
def first_moves : List String := ["e2e4", "d2d4", "c2c4", "g1f3"]

/-- Translation of `get_opening_move(board)`; `r` is the entropy consumed by
`random.choice`.  Returns `.error` when `random.choice` is applied to an
empty list (one non-book move played). -/
def get_opening_move {P M : Type} (g : Game P M) (b : P) (r : Nat) :
    Except Unit (Option String) :=
  match (g.moveStack b).map g.uci with
  | [] => (pyChoice first_moves r).map some
  | [m0] => (pyChoice ((opening_book.lookup m0).getD []) r).map some
  | _ => .ok none

/-- The `piece_values` table of the ChatGPT-4o variant. -/
def piece_values : PieceType → ℤ
  | .pawn => 100
  | .knight => 320
  | .bishop => 330
  | .rook => 500
  | .queen => 900
  | .king => 20000

/-- Translation of `evaluate_board(board)` of the ChatGPT-4o variant (all-integer). -/
def evaluate_board {P M : Type} (g : Game P M) (b : P) : ℤ :=
  if g.isCheckmate b then (if g.turn b = false then 100000 else -100000)
  else if g.isStalemate b || g.insufficientMaterial b then 0
  else
    ((List.finRange 64).foldl (fun acc sq =>
        match g.pieceAt b sq with
        | some pc => acc + piece_values pc.1 * (if pc.2 then 1 else -1)
        | none => acc) 0)
      + (g.legalMoves b).length * 5

/-- The `move_priority(move)` key inside `order_moves`. -/
def move_priority {P M : Type} (g : Game P M) (b : P) (m : M) : Nat :=
  if g.givesCheck b m then 20 else if g.isCapture b m then 10 else 1

/-- Translation of `order_moves(board)`: stable descending sort of the legal moves by
priority. -/
def order_moves {P M : Type} (g : Game P M) (b : P) : List M :=
  sortDesc (move_priority g b) (g.legalMoves b)

end Chat

/-- The sibling loop of the ChatGPT-4o `minimax` body, abstracted over
the recursive call `rec` (which already carries `depth - 1` and the
flipped side): fold the children while updating `best` and the window,
breaking as soon as `beta <= alpha`. -/
def ab_loop {P M : Type} (g : Game P M) (rec : P → Score → Score → Score)
    (maxi : Bool) (b : P) : List M → Score → Score → Score → Score
  | [], best, _, _ => best
  | m :: ms, best, al, bt =>
    let s := rec (g.push b m) al bt
    if maxi then
      let best2 := max best s
      let al2 := max al best2
      if bt ≤ al2 then best2 else ab_loop g rec maxi b ms best2 al2 bt
    else
      let best2 := min best s
      let bt2 := min bt best2
      if bt2 ≤ al then best2 else ab_loop g rec maxi b ms best2 al bt2

/-- Translation of `minimax(board, depth, alpha, beta, is_maximizing)` of the
ChatGPT-4o variant. -/
def Chat.minimax {P M : Type} (g : Game P M) :
    Nat → P → Score → Score → Bool → Score
  | 0, b, _, _, _ => sval ((Chat.evaluate_board g b : ℤ) : ℚ)
  | d + 1, b, al, bt, maxi =>
    if g.isGameOver b then sval ((Chat.evaluate_board g b : ℤ) : ℚ)
    else
      ab_loop g (fun p a2 b2 => Chat.minimax g d p a2 b2 (!maxi)) maxi b
        (Chat.order_moves g b) (if maxi then ⊥ else ⊤) al bt

/-- The root loop of `best_move_minimax`: strict improvement over the
ordered moves, always maximizing, with the constant full window. -/
def Chat.bm_loop {P M : Type} (g : Game P M) (d : Nat) (b : P) :
    List M → Score → Option M → Option M
  | [], _, bm => bm
  | m :: ms, bs, bm =>
    let s := Chat.minimax g (d - 1) (g.push b m) ⊥ ⊤ false
    if bs < s then Chat.bm_loop g d b ms s (some m)
    else Chat.bm_loop g d b ms bs bm

/-- Translation of `best_move_minimax(board, depth)` of the ChatGPT-4o variant; `r` is
the entropy consumed by the opening-book branch. -/
def Chat.best_move_minimax {P M : Type} (g : Game P M) (b : P) (d : Nat)
    (r : Nat) : Except Unit (Option M) :=
  if g.fullmoveNumber b ≤ 2 then
    match Chat.get_opening_move g b r with
    | .error e => .error e
    | .ok (some mv) => .ok (some (g.fromUci mv))
    | .ok none => .ok (Chat.bm_loop g d b (Chat.order_moves g b) ⊥ none)
  else .ok (Chat.bm_loop g d b (Chat.order_moves g b) ⊥ none)

/-- Translation of `random_move(board)` of the ChatGPT-4o variant:
`random.choice(list(board.legal_moves))`. -/
def Chat.random_move {P M : Type} (g : Game P M) (b : P) (r : Nat) :
    Except Unit M :=
  pyChoice (g.legalMoves b) r

/-- The `while not board.is_game_over()` loop of `play_game`, with an
explicit step budget `fuel` (`none` = still running after `fuel` plies).
Both variants share this loop shape. -/
def play_loop {P M : Type} (g : Game P M) (white black : P → M) :
    Nat → P → Option P
  | 0, _ => none
  | n + 1, b =>
    if g.isGameOver b then some b
    else play_loop g white black n (g.push b (if g.turn b then white b else black b))

/-- Result mapping of the ChatGPT-4o `play_game`:
`1 if result == "1-0" else -1 if result == "0-1" else 0`. -/
def Chat.game_score (res : String) : ℤ :=
  if res = "1-0" then 1 else if res = "0-1" then -1 else 0

/-- Translation of `play_game(player_white, player_black)` of the ChatGPT-4o variant,
fueled. -/
def Chat.play_game {P M : Type} (g : Game P M) (white black : P → M)
    (fuel : Nat) (b0 : P) : Option ℤ :=
  (play_loop g white black fuel b0).map (fun bf => Chat.game_score (g.resultStr bf))

/-- The `win_rates` summary of the ChatGPT-4o variant: each rate is
`count / num_games * 100`. -/
def Chat.win_rates (num_games : Nat) (results : List ℤ) : ℚ × ℚ × ℚ :=
  (((results.countP (fun r => r = 1) : ℚ) / (num_games : ℚ)) * 100,
   ((results.countP (fun r => r = -1) : ℚ) / (num_games : ℚ)) * 100,
   ((results.countP (fun r => r = 0) : ℚ) / (num_games : ℚ)) * 100)

namespace Goog

/-- The `PIECE_VALUES` table of the GoogleSearch variant. -/
def PIECE_VALUES : PieceType → ℚ
  | .pawn => 1
  | .knight => 3
  | .bishop => 3
  | .rook => 5
  | .queen => 9
  | .king => 100

/-- Translation of `get_termination(board)`: first satisfied classifier from
`TERMINATIONS`, in source order. -/
def get_termination {P M : Type} (g : Game P M) (b : P) : Option String :=
  if g.isStalemate b then some "is_stalemate"
  else if g.insufficientMaterial b then some "is_insufficient_material"
  else if g.isCheckmate b then some "is_checkmate"
  else if g.canClaimFiftyMoves b then some "can_claim_fifty_moves"
  else if g.canClaimThreefold b then some "can_claim_threefold_repetition"
  else none

/-- Translation of `evaluate_board(board)` of the GoogleSearch variant (material,
mobility, castling rights). -/
def evaluate_board {P M : Type} (g : Game P M) (b : P) : ℚ :=
  if g.isCheckmate b then (if g.turn b then -1000 else 1000)
  else if g.isStalemate b || g.insufficientMaterial b then 0
  else
    (PieceType.all.foldl (fun acc pt =>
        acc + (g.pieces b pt true : ℚ) * PIECE_VALUES pt
            - (g.pieces b pt false : ℚ) * PIECE_VALUES pt) 0)
      + (if g.turn b then (1 / 10 : ℚ) * (g.legalMoves b).length
         else -(1 / 10 : ℚ) * (g.legalMoves b).length)
      + (if g.hasCastlingRights b true then (1 / 2 : ℚ) else 0)
      + (if g.hasCastlingRights b false then -(1 / 2 : ℚ) else 0)

end Goog

/-- The maximizing loop of the GoogleSearch `minimax` (alpha is updated
with the child evaluation itself). -/
def g_max_loop {P M : Type} (g : Game P M) (rec : P → Score → Score → Score)
    (b : P) : List M → Score → Score → Score → Score
  | [], best, _, _ => best
  | m :: ms, best, al, bt =>
    let s := rec (g.push b m) al bt
    let best2 := max best s
    let al2 := max al s
    if bt ≤ al2 then best2 else g_max_loop g rec b ms best2 al2 bt

/-- The minimizing loop of the GoogleSearch `minimax`. -/
def g_min_loop {P M : Type} (g : Game P M) (rec : P → Score → Score → Score)
    (b : P) : List M → Score → Score → Score → Score
  | [], best, _, _ => best
  | m :: ms, best, al, bt =>
    let s := rec (g.push b m) al bt
    let best2 := min best s
    let bt2 := min bt s
    if bt2 ≤ al then best2 else g_min_loop g rec b ms best2 al bt2

/-- Translation of `minimax(board, depth, alpha, beta, maximizing_player)` of the
GoogleSearch variant. -/
def Goog.minimax {P M : Type} (g : Game P M) :
    Nat → P → Score → Score → Bool → Score
  | 0, b, _, _, _ => sval (Goog.evaluate_board g b)
  | d + 1, b, al, bt, maxi =>
    if g.isGameOver b then sval (Goog.evaluate_board g b)
    else if maxi then
      g_max_loop g (fun p a2 b2 => Goog.minimax g d p a2 b2 false) b
        (g.legalMoves b) ⊥ al bt
    else
      g_min_loop g (fun p a2 b2 => Goog.minimax g d p a2 b2 true) b
        (g.legalMoves b) ⊤ al bt

/-- The root loop of the GoogleSearch `best_move`: strict improvement
for White, strict worsening for Black, each child searched with a fresh
full window and side `not board.turn` taken after the push. -/
def Goog.bm_loop {P M : Type} (g : Game P M) (d : Nat) (b : P) :
    List M → Score → Option M → Option M
  | [], _, bm => bm
  | m :: ms, be, bm =>
    let s := Goog.minimax g (d - 1) (g.push b m) ⊥ ⊤ (!(g.turn (g.push b m)))
    if (g.turn b && decide (be < s)) || (!(g.turn b) && decide (s < be)) then
      Goog.bm_loop g d b ms s (some m)
    else Goog.bm_loop g d b ms be bm

/-- Translation of `best_move(board, depth)` of the GoogleSearch variant. -/
def Goog.best_move {P M : Type} (g : Game P M) (b : P) (d : Nat) : Option M :=
  Goog.bm_loop g d b (g.legalMoves b) (if g.turn b then ⊥ else ⊤) none

/-- Translation of `random_move(board)` of the GoogleSearch variant: shuffle, then
prefer captures.  The shuffled list is the injected entropy of
`random.shuffle`; `r` is the entropy of `random.choice`. -/
def Goog.random_move {P M : Type} (g : Game P M) (b : P) (shuffled : List M)
    (r : Nat) : Except Unit M :=
  let capture_moves := shuffled.filter (fun m => g.isCapture b m)
  if capture_moves.isEmpty then pyChoice shuffled r else pyChoice capture_moves r

/-- Translation of `play_game(white_strategy, black_strategy)` of the GoogleSearch
variant, fueled: final `(result, termination)` pair. -/
def Goog.play_game {P M : Type} (g : Game P M) (white black : P → M)
    (fuel : Nat) (b0 : P) : Option (String × Option String) :=
  (play_loop g white black fuel b0).map
    (fun bf => (g.resultClaimDraw bf, Goog.get_termination g bf))

/-- The per-game key recorded by `run_simulation`: the result string
for checkmates, the termination name otherwise. -/
def Goog.game_key (rt : String × Option String) : Option String :=
  if rt.2 = some "is_checkmate" then some rt.1 else rt.2

/-- The counter of `run_simulation`, represented by the list of recorded
per-game keys. -/
def Goog.run_keys (games : List (String × Option String)) : List (Option String) :=
  games.map Goog.game_key

/-- A key counted as a win (rather than a draw) by
`calculate_win_rate`. -/
def Goog.isWinKey (k : Option String) : Bool :=
  k = some "1-0" || k = some "0-1"

/-- Translation of `calculate_win_rate(stats)` of the GoogleSearch variant: white and
black win counts, everything else a draw, rates over `total_games`. -/
def Goog.calculate_win_rate (keys : List (Option String)) : ℚ × ℚ × ℚ :=
  let white_wins := keys.countP (fun k => k = some "1-0")
  let black_wins := keys.countP (fun k => k = some "0-1")
  let draws := keys.countP (fun k => !Goog.isWinKey k)
  let total_games := white_wins + black_wins + draws
  (((white_wins : ℚ) / (total_games : ℚ)) * 100,
   ((black_wins : ℚ) / (total_games : ℚ)) * 100,
   ((draws : ℚ) / (total_games : ℚ)) * 100)

/-- Least upper bound of the values of `f` over a list (the unpruned
maximizing fold, seeded with `-inf` like the Python code). -/
def listSup {M : Type} (f : M → Score) (l : List M) : Score :=
  l.foldl (fun a m => max a (f m)) ⊥

/-- Greatest lower bound of the values of `f` over a list (seeded with
`+inf`). -/
def listInf {M : Type} (f : M → Score) (l : List M) : Score :=
  l.foldl (fun a m => min a (f m)) ⊤

/-- Modelled from the spec: "an exhaustive (unpruned) minimax at the
same depth" — fold max (resp. min) over every child, no window, no
break; generic in the move enumeration and the evaluator so that it can
be instantiated for either source variant. -/
def unprunedMinimax {P M : Type} (g : Game P M) (mv : P → List M)
    (ev : P → ℚ) : Nat → P → Bool → Score
  | 0, b, _ => sval (ev b)
  | d + 1, b, maxi =>
    if g.isGameOver b then sval (ev b)
    else if maxi then
      listSup (fun m => unprunedMinimax g mv ev d (g.push b m) false) (mv b)
    else
      listInf (fun m => unprunedMinimax g mv ev d (g.push b m) true) (mv b)

/-- A concrete family of rules collaborators used to instantiate the
contract: a position is its own move history (oldest first), pushing
appends, popping drops the last move.  The behavioural fields are
supplied as tables. -/
def TGame (legal : List String → List String) (chk : List String → Bool)
    (insuf : List String → Bool) (trn : List String → Bool)
    (fmn : List String → Nat) (cap : List String → String → Bool)
    (h : ∀ p, insuf p = true → chk p = true → legal p ≠ []) :
    Game (List String) String where
  legalMoves := legal
  push := fun p m => p ++ [m]
  pop := fun p => p.dropLast
  turn := trn
  inCheck := chk
  insufficientMaterial := insuf
  canClaimFiftyMoves := fun _ => false
  canClaimThreefold := fun _ => false
  isGameOver := fun p => (legal p).isEmpty
  givesCheck := fun _ _ => false
  isCapture := cap
  pieceAt := fun _ _ => none
  pieces := fun _ _ _ => 0
  hasCastlingRights := fun _ _ => false
  moveStack := fun p => p
  uci := id
  fromUci := id
  fullmoveNumber := fmn
  resultStr := fun _ => "*"
  resultClaimDraw := fun _ => "*"
  pop_push := fun p m => List.dropLast_concat
  no_moves_over := fun p hp => by simp [hp]
  insufficient_not_mate := h

/-- Generic alpha-beta search in the shape of the ChatGPT-4o `minimax`,
parameterized by the move enumeration and the evaluator; both source
`minimax` functions are proved equal to instances of it. -/
def abSearch {P M : Type} (g : Game P M) (mv : P → List M) (ev : P → ℚ) :
    Nat → P → Score → Score → Bool → Score
  | 0, b, _, _, _ => sval (ev b)
  | d + 1, b, al, bt, maxi =>
    if g.isGameOver b then sval (ev b)
    else
      ab_loop g (fun p a2 b2 => abSearch g mv ev d p a2 b2 (!maxi)) maxi b
        (mv b) (if maxi then ⊥ else ⊤) al bt


/-- First element of a list attaining the maximum of `f` (spec-side
selector used to characterize the root loops). -/
def firstMaxBy {M : Type} (f : M → Score) : List M → Option M
  | [] => none
  | m :: ms =>
    match firstMaxBy f ms with
    | none => some m
    | some m2 => if f m2 ≤ f m then some m else some m2

/-- First element of a list attaining the minimum of `f`. -/
def firstMinBy {M : Type} (f : M → Score) : List M → Option M
  | [] => none
  | m :: ms =>
    match firstMinBy f ms with
    | none => some m
    | some m2 => if f m ≤ f m2 then some m else some m2

/-- Strict-improvement scan (the shape of both root loops when the
side is fixed): keep the first move whose score strictly beats the
running best. -/
def scanMax {M : Type} (f : M → Score) : List M → Score → Option M → Option M
  | [], _, bm => bm
  | m :: ms, be, bm =>
    if be < f m then scanMax f ms (f m) (some m) else scanMax f ms be bm

/-- Dual strict-worsening scan. -/
def scanMin {M : Type} (f : M → Score) : List M → Score → Option M → Option M
  | [], _, bm => bm
  | m :: ms, be, bm =>
    if f m < be then scanMin f ms (f m) (some m) else scanMin f ms be bm

/-- State-passing rendition of the ChatGPT-shaped sibling loop: the
`board.push(move)` / recursive call / `board.pop()` sequence threads the
mutable board explicitly. -/
def ab_loopS {P M : Type} (g : Game P M)
    (recS : P → Score → Score → Score × P) (maxi : Bool) :
    P → List M → Score → Score → Score → Score × P
  | b, [], best, _, _ => (best, b)
  | b, m :: ms, best, al, bt =>
    let b1 := g.push b m
    let r := recS b1 al bt
    let b3 := g.pop r.2
    let s := r.1
    if maxi then
      let best2 := max best s
      let al2 := max al best2
      if bt ≤ al2 then (best2, b3) else ab_loopS g recS maxi b3 ms best2 al2 bt
    else
      let best2 := min best s
      let bt2 := min bt best2
      if bt2 ≤ al then (best2, b3) else ab_loopS g recS maxi b3 ms best2 al bt2

/-- State-passing `minimax` of the ChatGPT-4o variant: returns the
score together with the board as left behind by the call. -/
def Chat.minimaxS {P M : Type} (g : Game P M) :
    Nat → P → Score → Score → Bool → Score × P
  | 0, b, _, _, _ => (sval ((Chat.evaluate_board g b : ℤ) : ℚ), b)
  | d + 1, b, al, bt, maxi =>
    if g.isGameOver b then (sval ((Chat.evaluate_board g b : ℤ) : ℚ), b)
    else
      ab_loopS g (fun p a2 b2 => Chat.minimaxS g d p a2 b2 (!maxi)) maxi b
        (Chat.order_moves g b) (if maxi then ⊥ else ⊤) al bt

/-- State-passing maximizing loop of the GoogleSearch `minimax`. -/
def g_max_loopS {P M : Type} (g : Game P M)
    (recS : P → Score → Score → Score × P) :
    P → List M → Score → Score → Score → Score × P
  | b, [], best, _, _ => (best, b)
  | b, m :: ms, best, al, bt =>
    let b1 := g.push b m
    let r := recS b1 al bt
    let b3 := g.pop r.2
    let s := r.1
    let best2 := max best s
    let al2 := max al s
    if bt ≤ al2 then (best2, b3) else g_max_loopS g recS b3 ms best2 al2 bt

/-- State-passing minimizing loop of the GoogleSearch `minimax`. -/
def g_min_loopS {P M : Type} (g : Game P M)
    (recS : P → Score → Score → Score × P) :
    P → List M → Score → Score → Score → Score × P
  | b, [], best, _, _ => (best, b)
  | b, m :: ms, best, al, bt =>
    let b1 := g.push b m
    let r := recS b1 al bt
    let b3 := g.pop r.2
    let s := r.1
    let best2 := min best s
    let bt2 := min bt s
    if bt2 ≤ al then (best2, b3) else g_min_loopS g recS b3 ms best2 al bt2

/-- State-passing `minimax` of the GoogleSearch variant. -/
def Goog.minimaxS {P M : Type} (g : Game P M) :
    Nat → P → Score → Score → Bool → Score × P
  | 0, b, _, _, _ => (sval (Goog.evaluate_board g b), b)
  | d + 1, b, al, bt, maxi =>
    if g.isGameOver b then (sval (Goog.evaluate_board g b), b)
    else if maxi then
      g_max_loopS g (fun p a2 b2 => Goog.minimaxS g d p a2 b2 false) b
        (g.legalMoves b) ⊥ al bt
    else
      g_min_loopS g (fun p a2 b2 => Goog.minimaxS g d p a2 b2 true) b
        (g.legalMoves b) ⊤ al bt

/-- State-passing root loop of the GoogleSearch `best_move`; the
`board.turn` test after the pop reads the threaded board. -/
def Goog.bm_loopS {P M : Type} (g : Game P M) (d : Nat) :
    P → List M → Score → Option M → Option M × P
  | b, [], _, bm => (bm, b)
  | b, m :: ms, be, bm =>
    let b1 := g.push b m
    let r := Goog.minimaxS g (d - 1) b1 ⊥ ⊤ (!(g.turn b1))
    let b3 := g.pop r.2
    let s := r.1
    if (g.turn b3 && decide (be < s)) || (!(g.turn b3) && decide (s < be)) then
      Goog.bm_loopS g d b3 ms s (some m)
    else Goog.bm_loopS g d b3 ms be bm

/-- State-passing `best_move` of the GoogleSearch variant. -/
def Goog.best_moveS {P M : Type} (g : Game P M) (b : P) (d : Nat) :
    Option M × P :=
  Goog.bm_loopS g d b (g.legalMoves b) (if g.turn b then ⊥ else ⊤) none

/-! ### Concrete collaborator instances for witnesses -/

/-- Legal-move table of a small two-ply game tree. -/
def legalX : List String → List String
  | [] => ["a", "b"]
  | ["a"] => ["u", "v"]
  | ["b"] => ["u"]
  | _ => []

/-- Black to move at the root, full-move number 3 (past the book). -/
def gX : Game (List String) String :=
  TGame legalX (fun _ => false) (fun _ => false) (fun _ => false)
    (fun _ => 3) (fun _ _ => false) (fun _ h => by simp at h)

/-- Two-move tree whose children are both terminal: after `a` the side
to move is checkmated, after `b` it is stalemated. -/
def legalT2 : List String → List String
  | [] => ["a", "b"]
  | _ => []

/-- In-check table for `legalT2`: only the position after `a`. -/
def chkT2 : List String → Bool
  | ["a"] => true
  | _ => false

/-- White to move at the root of the terminal-children tree. -/
def gW2 : Game (List String) String :=
  TGame legalT2 chkT2 (fun _ => false) (fun p => p.isEmpty)
    (fun _ => 3) (fun _ _ => false) (fun _ h => by simp at h)

/-- Black to move at the root of the terminal-children tree. -/
def gX2 : Game (List String) String :=
  TGame legalT2 chkT2 (fun _ => false) (fun _ => false)
    (fun _ => 3) (fun _ _ => false) (fun _ h => by simp at h)

/-- Every position has exactly one legal move: the game never ends. -/
def gInf : Game (List String) String :=
  TGame (fun _ => ["m"]) (fun _ => false) (fun _ => false)
    (fun p => p.length % 2 = 0) (fun _ => 1) (fun _ _ => false)
    (fun _ h => by simp at h)

/-- Opening-phase board (full-move number 1), two legal moves. -/
def gB : Game (List String) String :=
  TGame (fun _ => ["m1", "m2"]) (fun _ => false) (fun _ => false)
    (fun _ => true) (fun _ => 1) (fun _ _ => false) (fun _ h => by simp at h)

/-- One capture move and one quiet move at the root. -/
def gC9 : Game (List String) String :=
  TGame (fun p => if p = [] then ["cap", "quiet"] else [])
    (fun _ => false) (fun _ => false) (fun _ => true) (fun _ => 3)
    (fun _ m => m = "cap") (fun _ h => by simp at h)

/-- Checkmated position, Black to move (White delivered mate). -/
def gMateB : Game (List String) String :=
  TGame (fun _ => []) (fun _ => true) (fun _ => false) (fun _ => false)
    (fun _ => 9) (fun _ _ => false) (fun _ h => by simp at h)

/-- Checkmated position, White to move (Black delivered mate). -/
def gMateW : Game (List String) String :=
  TGame (fun _ => []) (fun _ => true) (fun _ => false) (fun _ => true)
    (fun _ => 9) (fun _ _ => false) (fun _ h => by simp at h)

/-- Stalemated position. -/
def gStale : Game (List String) String :=
  TGame (fun _ => []) (fun _ => false) (fun _ => false) (fun _ => true)
    (fun _ => 9) (fun _ _ => false) (fun _ h => by simp at h)

/-- Insufficient-material position that still has legal moves. -/
def gInsuf : Game (List String) String :=
  TGame (fun _ => ["m"]) (fun _ => false) (fun _ => true) (fun _ => true)
    (fun _ => 9) (fun _ _ => false) (fun _ _ hc => by simp at hc)

/-! ## Basic score and fold lemmas -/

theorem score_max_bot (a : Score) : max a ⊥ = a := max_eq_left bot_le

theorem score_bot_max (a : Score) : max ⊥ a = a := max_eq_right bot_le

theorem score_min_top (a : Score) : min a ⊤ = a := min_eq_left le_top

theorem score_top_min (a : Score) : min ⊤ a = a := min_eq_right le_top

theorem foldl_max_eq {M : Type} (f : M → Score) :
    ∀ (l : List M) (a : Score),
      l.foldl (fun x m => max x (f m)) a = max a (listSup f l) := by
  intro l
  induction l with
  | nil => intro a; simp [listSup, score_max_bot]
  | cons m ms ih =>
    intro a
    have h1 : listSup f (m :: ms) = max (f m) (listSup f ms) := by
      show (m :: ms).foldl (fun x m => max x (f m)) ⊥ = _
      rw [List.foldl_cons, ih (max ⊥ (f m)), score_bot_max]
    rw [h1]
    show ms.foldl (fun x m => max x (f m)) (max a (f m)) = _
    rw [ih (max a (f m)), max_assoc]

theorem listSup_cons {M : Type} (f : M → Score) (m : M) (ms : List M) :
    listSup f (m :: ms) = max (f m) (listSup f ms) := by
  show (m :: ms).foldl (fun x m => max x (f m)) ⊥ = _
  rw [List.foldl_cons, foldl_max_eq, score_bot_max]

theorem foldl_min_eq {M : Type} (f : M → Score) :
    ∀ (l : List M) (a : Score),
      l.foldl (fun x m => min x (f m)) a = min a (listInf f l) := by
  intro l
  induction l with
  | nil => intro a; simp [listInf, score_min_top]
  | cons m ms ih =>
    intro a
    have h1 : listInf f (m :: ms) = min (f m) (listInf f ms) := by
      show (m :: ms).foldl (fun x m => min x (f m)) ⊤ = _
      rw [List.foldl_cons, ih (min ⊤ (f m)), score_top_min]
    rw [h1]
    show ms.foldl (fun x m => min x (f m)) (min a (f m)) = _
    rw [ih (min a (f m)), min_assoc]

theorem listInf_cons {M : Type} (f : M → Score) (m : M) (ms : List M) :
    listInf f (m :: ms) = min (f m) (listInf f ms) := by
  show (m :: ms).foldl (fun x m => min x (f m)) ⊤ = _
  rw [List.foldl_cons, foldl_min_eq, score_top_min]

/-! ## Alpha-beta versus unpruned minimax (claim C1) -/

theorem ab_loop_congr {P M : Type} (g : Game P M)
    (rec1 rec2 : P → Score → Score → Score)
    (h : ∀ p a2 b2, rec1 p a2 b2 = rec2 p a2 b2) (maxi : Bool) (b : P) :
    ∀ (ms : List M) (best al bt : Score),
      ab_loop g rec1 maxi b ms best al bt = ab_loop g rec2 maxi b ms best al bt := by
  intro ms
  induction ms with
  | nil => intro best al bt; rfl
  | cons m ms ih =>
    intro best al bt
    cases maxi with
    | true => simp only [ab_loop, h]; split <;> simp [ih]
    | false => simp only [ab_loop, h]; split <;> simp [ih]

/-- Fail-soft invariant of the maximizing sibling loop: relative to the
incoming alpha `al0` of the node and its fixed beta `bt`, the loop result either
equals `max best` (sup of the unpruned values of the remaining children), or
fails outside the window while still bounding that value. -/
theorem ab_loop_max_km {P M : Type} (g : Game P M)
    (rec : P → Score → Score → Score) (c : M → Score) (b : P)
    (bt al0 : Score) :
    ∀ (ms : List M) (best al : Score),
      (∀ m ∈ ms, ∀ a2 : Score, a2 < bt →
          (rec (g.push b m) a2 bt ≤ a2 → c m ≤ rec (g.push b m) a2 bt) ∧
          (bt ≤ rec (g.push b m) a2 bt → rec (g.push b m) a2 bt ≤ c m) ∧
          (a2 < rec (g.push b m) a2 bt → rec (g.push b m) a2 bt < bt →
            rec (g.push b m) a2 bt = c m)) →
      al = max al0 best → al < bt →
      best ≤ ab_loop g rec true b ms best al bt ∧
      (ab_loop g rec true b ms best al bt ≤ al0 →
        max best (listSup c ms) ≤ ab_loop g rec true b ms best al bt) ∧
      (bt ≤ ab_loop g rec true b ms best al bt →
        ab_loop g rec true b ms best al bt ≤ max best (listSup c ms)) ∧
      (al0 < ab_loop g rec true b ms best al bt →
        ab_loop g rec true b ms best al bt < bt →
        ab_loop g rec true b ms best al bt = max best (listSup c ms)) := by
  intro ms
  induction ms with
  | nil =>
    intro best al hrec hinv hlt
    simp [ab_loop, listSup, score_max_bot]
  | cons m ms ih =>
    intro best al hrec hinv hlt
    obtain ⟨km1, km2, km3⟩ := hrec m (List.mem_cons_self m ms) al hlt
    have hbest_al : best ≤ al := hinv ▸ le_max_right al0 best
    have hal0_al : al0 ≤ al := hinv ▸ le_max_left al0 best
    set s := rec (g.push b m) al bt with hs
    have hT : max best (listSup c (m :: ms)) = max best (max (c m) (listSup c ms)) := by
      rw [listSup_cons]
    by_cases hbr : bt ≤ max al (max best s)
    · -- break: the loop returns max best s
      have hres : ab_loop g rec true b (m :: ms) best al bt = max best s := by
        simp only [ab_loop, ite_true]
        rw [if_pos hbr]
      have hbt_b2 : bt ≤ max best s := by
        rcases le_max_iff.mp hbr with h | h
        · exact absurd h (not_le.mpr hlt)
        · exact h
      have hbt_s : bt ≤ s := by
        rcases le_max_iff.mp hbt_b2 with h | h
        · exact absurd (lt_of_le_of_lt (h.trans hbest_al) hlt) (lt_irrefl bt)
        · exact h
      have hscm : s ≤ c m := km2 hbt_s
      rw [hres, hT]
      refine ⟨le_max_left _ _, ?_, ?_, ?_⟩
      · intro hle
        have : bt ≤ al := (hbt_b2.trans hle).trans hal0_al
        exact absurd this (not_le.mpr hlt)
      · intro _
        exact max_le (le_max_left _ _)
          (hscm.trans ((le_max_left _ _).trans (le_max_right _ _)))
      · intro _ hlt2
        exact absurd (lt_of_le_of_lt hbt_b2 hlt2) (lt_irrefl bt)
    · -- continue with best2 = max best s, al2 = max al best2
      have hcont : max al (max best s) < bt := not_le.mp hbr
      have hres : ab_loop g rec true b (m :: ms) best al bt
          = ab_loop g rec true b ms (max best s) (max al (max best s)) bt := by
        simp only [ab_loop, ite_true]
        rw [if_neg hbr]
      have hinv2 : max al (max best s) = max al0 (max best s) := by
        rw [hinv, max_assoc, ← max_assoc best best s, max_self]
      have hrec2 : ∀ m2 ∈ ms, ∀ a2 : Score, a2 < bt →
          (rec (g.push b m2) a2 bt ≤ a2 → c m2 ≤ rec (g.push b m2) a2 bt) ∧
          (bt ≤ rec (g.push b m2) a2 bt → rec (g.push b m2) a2 bt ≤ c m2) ∧
          (a2 < rec (g.push b m2) a2 bt → rec (g.push b m2) a2 bt < bt →
            rec (g.push b m2) a2 bt = c m2) :=
        fun m2 hm2 => hrec m2 (List.mem_cons_of_mem m hm2)
      obtain ⟨iha, ihb, ihc, ihd⟩ :=
        ih (max best s) (max al (max best s)) hrec2 hinv2 hcont
      set R := ab_loop g rec true b ms (max best s) (max al (max best s)) bt with hR
      have hs_lt_bt : s < bt :=
        lt_of_le_of_lt ((le_max_right best s).trans (le_max_right al (max best s))) hcont
      rw [hres, hT]
      by_cases hsal : al < s
      · -- the child search was exact: s = c m
        have hseq : s = c m := km3 hsal hs_lt_bt
        have hTT : max (max best s) (listSup c ms)
            = max best (max (c m) (listSup c ms)) := by
          rw [max_assoc, hseq]
        refine ⟨(le_max_left best s).trans iha, ?_, ?_, ?_⟩
        · intro hle; exact (hTT ▸ (ihb hle))
        · intro hge; exact (ihc hge).trans (le_of_eq hTT)
        · intro h1 h2; exact (ihd h1 h2).trans hTT
      · -- the child search failed low: c m ≤ s ≤ al
        have hs_le_al : s ≤ al := not_lt.mp hsal
        have hcs : c m ≤ s := km1 hs_le_al
        refine ⟨(le_max_left best s).trans iha, ?_, ?_, ?_⟩
        · intro hle
          have hTle := ihb hle
          refine max_le ((le_max_left best s).trans ((le_max_left _ _).trans hTle)) ?_
          refine max_le (hcs.trans ((le_max_right best s).trans ((le_max_left _ _).trans hTle))) ?_
          exact (le_max_right (max best s) (listSup c ms)).trans hTle
        · intro hge
          have hRle := ihc hge
          rcases le_max_iff.mp hRle with h1 | h1
          · rcases le_max_iff.mp h1 with h2 | h2
            · exact h2.trans (le_max_left _ _)
            · have : R < R := lt_of_lt_of_le (lt_of_le_of_lt (h2.trans hs_le_al) hlt) hge
              exact absurd this (lt_irrefl R)
          · exact h1.trans ((le_max_right _ _).trans (le_max_right _ _))
        · intro h1 h2
          have hReq := ihd h1 h2
          refine le_antisymm ?_ ?_
          · rcases le_max_iff.mp (le_of_eq hReq) with ha | ha
            · rcases le_max_iff.mp ha with hb | hb
              · exact hb.trans (le_max_left _ _)
              · have hRal : R ≤ al := hb.trans hs_le_al
                rcases le_max_iff.mp (hinv ▸ hRal) with hc | hc
                · exact absurd (lt_of_lt_of_le h1 hc) (lt_irrefl al0)
                · exact hc.trans (le_max_left _ _)
            · exact ha.trans ((le_max_right _ _).trans (le_max_right _ _))
          · refine max_le ((le_max_left best s).trans iha) (max_le ?_ ?_)
            · exact hcs.trans ((le_max_right best s).trans iha)
            · exact hReq ▸ (le_max_right (max best s) (listSup c ms))

/-- Dual fail-soft invariant for the minimizing sibling loop. -/
theorem ab_loop_min_km {P M : Type} (g : Game P M)
    (rec : P → Score → Score → Score) (c : M → Score) (b : P)
    (al bt0 : Score) :
    ∀ (ms : List M) (best bt : Score),
      (∀ m ∈ ms, ∀ b2 : Score, al < b2 →
          (rec (g.push b m) al b2 ≤ al → c m ≤ rec (g.push b m) al b2) ∧
          (b2 ≤ rec (g.push b m) al b2 → rec (g.push b m) al b2 ≤ c m) ∧
          (al < rec (g.push b m) al b2 → rec (g.push b m) al b2 < b2 →
            rec (g.push b m) al b2 = c m)) →
      bt = min bt0 best → al < bt →
      ab_loop g rec false b ms best al bt ≤ best ∧
      (bt0 ≤ ab_loop g rec false b ms best al bt →
        ab_loop g rec false b ms best al bt ≤ min best (listInf c ms)) ∧
      (ab_loop g rec false b ms best al bt ≤ al →
        min best (listInf c ms) ≤ ab_loop g rec false b ms best al bt) ∧
      (al < ab_loop g rec false b ms best al bt →
        ab_loop g rec false b ms best al bt < bt0 →
        ab_loop g rec false b ms best al bt = min best (listInf c ms)) := by
  intro ms
  induction ms with
  | nil =>
    intro best bt hrec hinv hlt
    simp [ab_loop, listInf, score_min_top]
  | cons m ms ih =>
    intro best bt hrec hinv hlt
    obtain ⟨km1, km2, km3⟩ := hrec m (List.mem_cons_self m ms) bt hlt
    have hbt_best : bt ≤ best := hinv ▸ min_le_right bt0 best
    have hbt_bt0 : bt ≤ bt0 := hinv ▸ min_le_left bt0 best
    set s := rec (g.push b m) al bt with hs
    have hT : min best (listInf c (m :: ms)) = min best (min (c m) (listInf c ms)) := by
      rw [listInf_cons]
    by_cases hbr : min bt (min best s) ≤ al
    · -- break: the loop returns min best s
      have hres : ab_loop g rec false b (m :: ms) best al bt = min best s := by
        simp only [ab_loop, Bool.false_eq_true, ite_false]
        rw [if_pos hbr]
      have hb2_al : min best s ≤ al := by
        rcases min_le_iff.mp hbr with h | h
        · exact absurd h (not_le.mpr hlt)
        · exact h
      have hs_al : s ≤ al := by
        rcases min_le_iff.mp hb2_al with h | h
        · exact absurd (lt_of_le_of_lt (hbt_best.trans h) hlt) (lt_irrefl bt)
        · exact h
      have hcms : c m ≤ s := km1 hs_al
      rw [hres, hT]
      refine ⟨min_le_left _ _, ?_, ?_, ?_⟩
      · intro hge
        have : bt ≤ al := hbt_bt0.trans (hge.trans hb2_al)
        exact absurd this (not_le.mpr hlt)
      · intro _
        exact le_min (min_le_left _ _)
          (((min_le_right best (min (c m) (listInf c ms))).trans
              (min_le_left (c m) (listInf c ms))).trans hcms)
      · intro hgt _
        exact absurd (lt_of_lt_of_le hgt hb2_al) (lt_irrefl al)
    · -- continue with best2 = min best s, bt2 = min bt best2
      have hcont : al < min bt (min best s) := not_le.mp hbr
      have hres : ab_loop g rec false b (m :: ms) best al bt
          = ab_loop g rec false b ms (min best s) al (min bt (min best s)) := by
        simp only [ab_loop, Bool.false_eq_true, ite_false]
        rw [if_neg hbr]
      have hinv2 : min bt (min best s) = min bt0 (min best s) := by
        rw [hinv, min_assoc, ← min_assoc best best s, min_self]
      have hrec2 : ∀ m2 ∈ ms, ∀ b2 : Score, al < b2 →
          (rec (g.push b m2) al b2 ≤ al → c m2 ≤ rec (g.push b m2) al b2) ∧
          (b2 ≤ rec (g.push b m2) al b2 → rec (g.push b m2) al b2 ≤ c m2) ∧
          (al < rec (g.push b m2) al b2 → rec (g.push b m2) al b2 < b2 →
            rec (g.push b m2) al b2 = c m2) :=
        fun m2 hm2 => hrec m2 (List.mem_cons_of_mem m hm2)
      obtain ⟨iha, ihb, ihc, ihd⟩ :=
        ih (min best s) (min bt (min best s)) hrec2 hinv2 hcont
      set R := ab_loop g rec false b ms (min best s) al (min bt (min best s)) with hR
      have hal_lt_s : al < s :=
        lt_of_lt_of_le hcont ((min_le_right bt (min best s)).trans (min_le_right best s))
      rw [hres, hT]
      by_cases hsbt : s < bt
      · -- the child search was exact: s = c m
        have hseq : s = c m := km3 hal_lt_s hsbt
        have hTT : min (min best s) (listInf c ms)
            = min best (min (c m) (listInf c ms)) := by
          rw [min_assoc, hseq]
        refine ⟨iha.trans (min_le_left best s), ?_, ?_, ?_⟩
        · intro hge; exact (ihb hge).trans (le_of_eq hTT)
        · intro hle; exact (hTT ▸ (ihc hle))
        · intro h1 h2; exact (ihd h1 h2).trans hTT
      · -- the child search failed high: bt ≤ s, so s ≤ c m
        have hbt_le_s : bt ≤ s := not_lt.mp hsbt
        have hsc : s ≤ c m := km2 hbt_le_s
        refine ⟨iha.trans (min_le_left best s), ?_, ?_, ?_⟩
        · intro hge
          have hRle := ihb hge
          refine le_min (hRle.trans ((min_le_left _ _).trans (min_le_left _ _))) (le_min ?_ ?_)
          · exact (hRle.trans ((min_le_left _ _).trans (min_le_right _ _))).trans hsc
          · exact hRle.trans (min_le_right _ _)
        · intro hle
          have hTle := ihc hle
          rcases min_le_iff.mp hTle with h1 | h1
          · rcases min_le_iff.mp h1 with h2 | h2
            · exact (min_le_left _ _).trans h2
            · have : al < al := lt_of_lt_of_le hlt ((hbt_le_s.trans h2).trans hle)
              exact absurd this (lt_irrefl al)
          · exact ((min_le_right _ _).trans (min_le_right _ _)).trans h1
        · intro h1 h2
          have hReq := ihd h1 h2
          refine le_antisymm ?_ ?_
          · refine le_min (iha.trans (min_le_left best s)) (le_min ?_ ?_)
            · exact (le_of_eq hReq).trans ((min_le_left _ _).trans ((min_le_right _ _).trans hsc))
            · exact (le_of_eq hReq).trans (min_le_right _ _)
          · rcases min_le_iff.mp (le_of_eq hReq.symm) with ha | ha
            · rcases min_le_iff.mp ha with hb | hb
              · exact (min_le_left _ _).trans hb
              · have hbtR : bt ≤ R := hbt_le_s.trans hb
                rcases min_le_iff.mp (hinv ▸ hbtR) with hc | hc
                · exact absurd (lt_of_le_of_lt hc h2) (lt_irrefl bt0)
                · exact (min_le_left _ _).trans hc
            · exact ((min_le_right _ _).trans (min_le_right _ _)).trans ha

/-- Knuth–Moore relation between the generic alpha-beta search and the
unpruned minimax, for every window `al < bt`. -/
theorem abSearch_km {P M : Type} (g : Game P M) (mv : P → List M) (ev : P → ℚ) :
    ∀ (d : Nat) (b : P) (al bt : Score) (maxi : Bool), al < bt →
      (abSearch g mv ev d b al bt maxi ≤ al →
        unprunedMinimax g mv ev d b maxi ≤ abSearch g mv ev d b al bt maxi) ∧
      (bt ≤ abSearch g mv ev d b al bt maxi →
        abSearch g mv ev d b al bt maxi ≤ unprunedMinimax g mv ev d b maxi) ∧
      (al < abSearch g mv ev d b al bt maxi →
        abSearch g mv ev d b al bt maxi < bt →
        abSearch g mv ev d b al bt maxi = unprunedMinimax g mv ev d b maxi) := by
  intro d
  induction d with
  | zero =>
    intro b al bt maxi hlt
    exact ⟨fun _ => le_refl _, fun _ => le_refl _, fun _ _ => rfl⟩
  | succ d ihd =>
    intro b al bt maxi hlt
    by_cases hgo : g.isGameOver b
    · have h1 : abSearch g mv ev (d + 1) b al bt maxi = sval (ev b) := by
        simp [abSearch, hgo]
      have h2 : unprunedMinimax g mv ev (d + 1) b maxi = sval (ev b) := by
        simp [unprunedMinimax, hgo]
      rw [h1, h2]
      exact ⟨fun _ => le_refl _, fun _ => le_refl _, fun _ _ => rfl⟩
    · cases maxi with
      | true =>
        have hrec : ∀ m ∈ mv b, ∀ a2 : Score, a2 < bt →
            (abSearch g mv ev d (g.push b m) a2 bt false ≤ a2 →
              unprunedMinimax g mv ev d (g.push b m) false
                ≤ abSearch g mv ev d (g.push b m) a2 bt false) ∧
            (bt ≤ abSearch g mv ev d (g.push b m) a2 bt false →
              abSearch g mv ev d (g.push b m) a2 bt false
                ≤ unprunedMinimax g mv ev d (g.push b m) false) ∧
            (a2 < abSearch g mv ev d (g.push b m) a2 bt false →
              abSearch g mv ev d (g.push b m) a2 bt false < bt →
              abSearch g mv ev d (g.push b m) a2 bt false
                = unprunedMinimax g mv ev d (g.push b m) false) :=
          fun m _ a2 ha2 =>
            ⟨(ihd (g.push b m) a2 bt false ha2).1,
             (ihd (g.push b m) a2 bt false ha2).2.1,
             (ihd (g.push b m) a2 bt false ha2).2.2⟩
        obtain ⟨_, hb, hc, hd⟩ := ab_loop_max_km g
          (fun p a2 b2 => abSearch g mv ev d p a2 b2 false)
          (fun m => unprunedMinimax g mv ev d (g.push b m) false) b bt al
          (mv b) ⊥ al hrec (score_max_bot al).symm hlt
        have e1 : abSearch g mv ev (d + 1) b al bt true
            = ab_loop g (fun p a2 b2 => abSearch g mv ev d p a2 b2 false) true b
                (mv b) ⊥ al bt := by
          simp [abSearch, hgo]
        have e2 : unprunedMinimax g mv ev (d + 1) b true
            = listSup (fun m => unprunedMinimax g mv ev d (g.push b m) false) (mv b) := by
          simp [unprunedMinimax, hgo]
        rw [score_bot_max] at hb hc hd
        rw [e1, e2]
        exact ⟨hb, hc, hd⟩
      | false =>
        have hrec : ∀ m ∈ mv b, ∀ b2 : Score, al < b2 →
            (abSearch g mv ev d (g.push b m) al b2 true ≤ al →
              unprunedMinimax g mv ev d (g.push b m) true
                ≤ abSearch g mv ev d (g.push b m) al b2 true) ∧
            (b2 ≤ abSearch g mv ev d (g.push b m) al b2 true →
              abSearch g mv ev d (g.push b m) al b2 true
                ≤ unprunedMinimax g mv ev d (g.push b m) true) ∧
            (al < abSearch g mv ev d (g.push b m) al b2 true →
              abSearch g mv ev d (g.push b m) al b2 true < b2 →
              abSearch g mv ev d (g.push b m) al b2 true
                = unprunedMinimax g mv ev d (g.push b m) true) :=
          fun m _ b2 hb2 =>
            ⟨(ihd (g.push b m) al b2 true hb2).1,
             (ihd (g.push b m) al b2 true hb2).2.1,
             (ihd (g.push b m) al b2 true hb2).2.2⟩
        obtain ⟨_, hb, hc, hd⟩ := ab_loop_min_km g
          (fun p a2 b2 => abSearch g mv ev d p a2 b2 true)
          (fun m => unprunedMinimax g mv ev d (g.push b m) true) b al bt
          (mv b) ⊤ bt hrec (score_min_top bt).symm hlt
        have e1 : abSearch g mv ev (d + 1) b al bt false
            = ab_loop g (fun p a2 b2 => abSearch g mv ev d p a2 b2 true) false b
                (mv b) ⊤ al bt := by
          simp [abSearch, hgo]
        have e2 : unprunedMinimax g mv ev (d + 1) b false
            = listInf (fun m => unprunedMinimax g mv ev d (g.push b m) true) (mv b) := by
          simp [unprunedMinimax, hgo]
        rw [score_top_min] at hb hc hd
        rw [e1, e2]
        exact ⟨hc, hb, hd⟩

/-- At the full window of the root the generic alpha-beta search coincides
with the unpruned minimax. -/
theorem abSearch_full {P M : Type} (g : Game P M) (mv : P → List M)
    (ev : P → ℚ) (d : Nat) (b : P) (maxi : Bool) :
    abSearch g mv ev d b ⊥ ⊤ maxi = unprunedMinimax g mv ev d b maxi := by
  obtain ⟨h1, h2, h3⟩ := abSearch_km g mv ev d b ⊥ ⊤ maxi bot_lt_top
  rcases le_or_lt (abSearch g mv ev d b ⊥ ⊤ maxi) ⊥ with hle | hgt
  · have hv := h1 hle
    have hr : abSearch g mv ev d b ⊥ ⊤ maxi = ⊥ := le_bot_iff.mp hle
    rw [hr] at hv ⊢
    exact (le_bot_iff.mp hv).symm
  · rcases le_or_lt ⊤ (abSearch g mv ev d b ⊥ ⊤ maxi) with hge | hlt
    · have hv := h2 hge
      have hr : abSearch g mv ev d b ⊥ ⊤ maxi = ⊤ := top_le_iff.mp hge
      rw [hr] at hv ⊢
      exact (top_le_iff.mp hv).symm
    · exact h3 hgt hlt

/-- The ChatGPT-4o `minimax` is the generic search instantiated with its
move ordering and evaluator. -/
theorem chat_minimax_eq_abSearch {P M : Type} (g : Game P M) :
    ∀ (d : Nat) (b : P) (al bt : Score) (maxi : Bool),
      Chat.minimax g d b al bt maxi
        = abSearch g (Chat.order_moves g)
            (fun p => ((Chat.evaluate_board g p : ℤ) : ℚ)) d b al bt maxi := by
  intro d
  induction d with
  | zero => intro b al bt maxi; rfl
  | succ d ihd =>
    intro b al bt maxi
    show (if g.isGameOver b then _ else _) = (if g.isGameOver b then _ else _)
    by_cases hgo : g.isGameOver b
    · simp [hgo]
    · simp only [hgo, ite_false, Bool.false_eq_true]
      exact ab_loop_congr g _ _ (fun p a2 b2 => ihd p a2 b2 (!maxi)) maxi b _ _ _ _

/-- Under the running invariant `best ≤ al`, the GoogleSearch
maximizing loop (alpha updated with the raw child score) coincides with
the ChatGPT-shaped loop (alpha updated with the running best). -/
theorem g_max_loop_eq_ab_loop {P M : Type} (g : Game P M)
    (rec : P → Score → Score → Score) (b : P) :
    ∀ (ms : List M) (best al bt : Score), best ≤ al →
      g_max_loop g rec b ms best al bt = ab_loop g rec true b ms best al bt := by
  intro ms
  induction ms with
  | nil => intro best al bt _; rfl
  | cons m ms ih =>
    intro best al bt hle
    have hkey : max al (max best (rec (g.push b m) al bt))
        = max al (rec (g.push b m) al bt) := by
      rw [← max_assoc, max_eq_left hle]
    show (if bt ≤ max al (rec (g.push b m) al bt) then _ else
            g_max_loop g rec b ms _ _ _)
        = (if bt ≤ max al (max best (rec (g.push b m) al bt)) then _ else
            ab_loop g rec true b ms _ _ _)
    rw [hkey]
    by_cases hbr : bt ≤ max al (rec (g.push b m) al bt)
    · simp [hbr]
    · simp only [hbr, ite_false]
      rw [← hkey]
      exact ih _ _ _ (le_max_right _ _)

/-- Dual bridge for the GoogleSearch minimizing loop, under `bt ≤ best`. -/
theorem g_min_loop_eq_ab_loop {P M : Type} (g : Game P M)
    (rec : P → Score → Score → Score) (b : P) :
    ∀ (ms : List M) (best al bt : Score), bt ≤ best →
      g_min_loop g rec b ms best al bt = ab_loop g rec false b ms best al bt := by
  intro ms
  induction ms with
  | nil => intro best al bt _; rfl
  | cons m ms ih =>
    intro best al bt hle
    have hkey : min bt (min best (rec (g.push b m) al bt))
        = min bt (rec (g.push b m) al bt) := by
      rw [← min_assoc, min_eq_left hle]
    show (if min bt (rec (g.push b m) al bt) ≤ al then _ else
            g_min_loop g rec b ms _ _ _)
        = (if min bt (min best (rec (g.push b m) al bt)) ≤ al then _ else
            ab_loop g rec false b ms _ _ _)
    rw [hkey]
    by_cases hbr : min bt (rec (g.push b m) al bt) ≤ al
    · simp [hbr]
    · simp only [hbr, ite_false]
      rw [← hkey]
      exact ih _ _ _ (min_le_right _ _)

/-- The GoogleSearch `minimax` is the generic search instantiated with
the raw legal-move enumeration and its evaluator. -/
theorem goog_minimax_eq_abSearch {P M : Type} (g : Game P M) :
    ∀ (d : Nat) (b : P) (al bt : Score) (maxi : Bool),
      Goog.minimax g d b al bt maxi
        = abSearch g g.legalMoves (Goog.evaluate_board g) d b al bt maxi := by
  intro d
  induction d with
  | zero => intro b al bt maxi; rfl
  | succ d ihd =>
    intro b al bt maxi
    by_cases hgo : g.isGameOver b
    · cases maxi <;> simp [Goog.minimax, abSearch, hgo]
    · cases maxi with
      | true =>
        have e1 : Goog.minimax g (d + 1) b al bt true
            = g_max_loop g (fun p a2 b2 => Goog.minimax g d p a2 b2 false) b
                (g.legalMoves b) ⊥ al bt := by
          simp [Goog.minimax, hgo]
        have e2 : abSearch g g.legalMoves (Goog.evaluate_board g) (d + 1) b al bt true
            = ab_loop g
                (fun p a2 b2 =>
                  abSearch g g.legalMoves (Goog.evaluate_board g) d p a2 b2 false)
                true b (g.legalMoves b) ⊥ al bt := by
          simp [abSearch, hgo]
        rw [e1, e2, g_max_loop_eq_ab_loop g _ b _ _ _ _ bot_le]
        exact ab_loop_congr g _ _ (fun p a2 b2 => ihd p a2 b2 false) true b _ _ _ _
      | false =>
        have e1 : Goog.minimax g (d + 1) b al bt false
            = g_min_loop g (fun p a2 b2 => Goog.minimax g d p a2 b2 true) b
                (g.legalMoves b) ⊤ al bt := by
          simp [Goog.minimax, hgo]
        have e2 : abSearch g g.legalMoves (Goog.evaluate_board g) (d + 1) b al bt false
            = ab_loop g
                (fun p a2 b2 =>
                  abSearch g g.legalMoves (Goog.evaluate_board g) d p a2 b2 true)
                false b (g.legalMoves b) ⊤ al bt := by
          simp [abSearch, hgo]
        rw [e1, e2, g_min_loop_eq_ab_loop g _ b _ _ _ _ le_top]
        exact ab_loop_congr g _ _ (fun p a2 b2 => ihd p a2 b2 true) false b _ _ _ _

/-- C1: for every position and every depth, the `minimax` of each variant
called with the full window `alpha = -inf, beta = +inf` returns exactly
the score of the exhaustive unpruned minimax of the same position at
the same depth. -/
theorem c1_pruning_equivalence {P M : Type} (g : Game P M) (d : Nat) (b : P)
    (maxi : Bool) :
    Chat.minimax g d b ⊥ ⊤ maxi
      = unprunedMinimax g (Chat.order_moves g)
          (fun p => ((Chat.evaluate_board g p : ℤ) : ℚ)) d b maxi
    ∧ Goog.minimax g d b ⊥ ⊤ maxi
      = unprunedMinimax g g.legalMoves (Goog.evaluate_board g) d b maxi := by
  constructor
  · rw [chat_minimax_eq_abSearch g d b ⊥ ⊤ maxi]
    exact abSearch_full g _ _ d b maxi
  · rw [goog_minimax_eq_abSearch g d b ⊥ ⊤ maxi]
    exact abSearch_full g _ _ d b maxi

/-! ## Board restoration through the search (claim C4) -/

theorem ab_loopS_spec {P M : Type} (g : Game P M)
    (recS : P → Score → Score → Score × P) (rec : P → Score → Score → Score)
    (h : ∀ p a2 b2, recS p a2 b2 = (rec p a2 b2, p)) (maxi : Bool) :
    ∀ (ms : List M) (b : P) (best al bt : Score),
      ab_loopS g recS maxi b ms best al bt
        = (ab_loop g rec maxi b ms best al bt, b) := by
  intro ms
  induction ms with
  | nil => intro b best al bt; cases maxi <;> rfl
  | cons m ms ih =>
    intro b best al bt
    cases maxi with
    | true =>
      simp only [ab_loopS, ab_loop, h, g.pop_push, eq_self_iff_true, if_true]
      split
      · rfl
      · exact ih b _ _ _
    | false =>
      simp only [ab_loopS, ab_loop, h, g.pop_push, Bool.false_eq_true, if_false]
      split
      · rfl
      · exact ih b _ _ _

theorem chat_minimaxS_spec {P M : Type} (g : Game P M) :
    ∀ (d : Nat) (b : P) (al bt : Score) (maxi : Bool),
      Chat.minimaxS g d b al bt maxi = (Chat.minimax g d b al bt maxi, b) := by
  intro d
  induction d with
  | zero => intro b al bt maxi; rfl
  | succ d ihd =>
    intro b al bt maxi
    by_cases hgo : g.isGameOver b
    · simp [Chat.minimaxS, Chat.minimax, hgo]
    · simp only [Chat.minimaxS, Chat.minimax, hgo, ite_false, Bool.false_eq_true]
      exact ab_loopS_spec g _ _ (fun p a2 b2 => ihd p a2 b2 (!maxi)) maxi _ b _ _ _

theorem g_max_loopS_spec {P M : Type} (g : Game P M)
    (recS : P → Score → Score → Score × P) (rec : P → Score → Score → Score)
    (h : ∀ p a2 b2, recS p a2 b2 = (rec p a2 b2, p)) :
    ∀ (ms : List M) (b : P) (best al bt : Score),
      g_max_loopS g recS b ms best al bt
        = (g_max_loop g rec b ms best al bt, b) := by
  intro ms
  induction ms with
  | nil => intro b best al bt; rfl
  | cons m ms ih =>
    intro b best al bt
    simp only [g_max_loopS, g_max_loop, h, g.pop_push]
    split
    · rfl
    · exact ih b _ _ _

theorem g_min_loopS_spec {P M : Type} (g : Game P M)
    (recS : P → Score → Score → Score × P) (rec : P → Score → Score → Score)
    (h : ∀ p a2 b2, recS p a2 b2 = (rec p a2 b2, p)) :
    ∀ (ms : List M) (b : P) (best al bt : Score),
      g_min_loopS g recS b ms best al bt
        = (g_min_loop g rec b ms best al bt, b) := by
  intro ms
  induction ms with
  | nil => intro b best al bt; rfl
  | cons m ms ih =>
    intro b best al bt
    simp only [g_min_loopS, g_min_loop, h, g.pop_push]
    split
    · rfl
    · exact ih b _ _ _

theorem goog_minimaxS_spec {P M : Type} (g : Game P M) :
    ∀ (d : Nat) (b : P) (al bt : Score) (maxi : Bool),
      Goog.minimaxS g d b al bt maxi = (Goog.minimax g d b al bt maxi, b) := by
  intro d
  induction d with
  | zero => intro b al bt maxi; rfl
  | succ d ihd =>
    intro b al bt maxi
    by_cases hgo : g.isGameOver b
    · cases maxi <;> simp [Goog.minimaxS, Goog.minimax, hgo]
    · cases maxi with
      | true =>
        simp only [Goog.minimaxS, Goog.minimax, hgo, ite_false, ite_true,
          Bool.false_eq_true]
        exact g_max_loopS_spec g _ _ (fun p a2 b2 => ihd p a2 b2 false) _ b _ _ _
      | false =>
        simp only [Goog.minimaxS, Goog.minimax, hgo, ite_false, ite_true,
          Bool.false_eq_true]
        exact g_min_loopS_spec g _ _ (fun p a2 b2 => ihd p a2 b2 true) _ b _ _ _

theorem goog_bm_loopS_spec {P M : Type} (g : Game P M) (d : Nat) :
    ∀ (ms : List M) (b : P) (be : Score) (bm : Option M),
      Goog.bm_loopS g d b ms be bm = (Goog.bm_loop g d b ms be bm, b) := by
  intro ms
  induction ms with
  | nil => intro b be bm; rfl
  | cons m ms ih =>
    intro b be bm
    simp only [Goog.bm_loopS, Goog.bm_loop, goog_minimaxS_spec, g.pop_push]
    split
    · exact ih b _ _
    · exact ih b _ _

/-- C4: after `minimax` (either variant) or the GoogleSearch
`best_move` returns, the threaded board is exactly the board passed in:
every pushed move has been popped again, through arbitrarily deep
recursion.  (The score component moreover coincides with the pure
rendition of the search.) -/
theorem c4_board_restoration {P M : Type} (g : Game P M) (d : Nat) (b : P)
    (al bt : Score) (maxi : Bool) :
    (Chat.minimaxS g d b al bt maxi).2 = b
    ∧ (Goog.minimaxS g d b al bt maxi).2 = b
    ∧ (Goog.best_moveS g b d).2 = b := by
  refine ⟨?_, ?_, ?_⟩
  · rw [chat_minimaxS_spec g d b al bt maxi]
  · rw [goog_minimaxS_spec g d b al bt maxi]
  · show (Goog.bm_loopS g d b _ _ _).2 = b
    rw [goog_bm_loopS_spec g d _ b _ _]

/-! ## Terminal evaluation (claim C3) -/

theorem checkmate_of_not_stale {P M : Type} (g : Game P M) (b : P)
    (h : g.isStalemate b = true) : g.isCheckmate b = false := by
  simp only [Game.isStalemate, Bool.and_eq_true, Bool.not_eq_true'] at h
  simp [Game.isCheckmate, h.1]

theorem checkmate_of_insufficient {P M : Type} (g : Game P M) (b : P)
    (h : g.insufficientMaterial b = true) : g.isCheckmate b = false := by
  by_cases hc : g.inCheck b = true
  · have hne := g.insufficient_not_mate b h hc
    simp [Game.isCheckmate, hc, List.isEmpty_iff, hne]
  · simp only [Bool.not_eq_true] at hc
    simp [Game.isCheckmate, hc]

/-- C3: both evaluators score a checkmate at their saturating extreme
with the sign favoring the mating side (positive for White when Black
is the checkmated side to move), and score a stalemate or an
insufficient-material position exactly zero — whatever material the
board holds. -/
theorem c3_terminal_scoring {P M : Type} (g : Game P M) (b : P) :
    (g.isCheckmate b = true →
      Chat.evaluate_board g b = (if g.turn b = false then 100000 else -100000)
      ∧ Goog.evaluate_board g b = (if g.turn b then -1000 else 1000))
    ∧ ((g.isStalemate b = true ∨ g.insufficientMaterial b = true) →
      Chat.evaluate_board g b = 0 ∧ Goog.evaluate_board g b = 0) := by
  constructor
  · intro hm
    constructor
    · simp [Chat.evaluate_board, hm]
    · simp [Goog.evaluate_board, hm]
  · intro hd
    have hcm : g.isCheckmate b = false := by
      rcases hd with h | h
      · exact checkmate_of_not_stale g b h
      · exact checkmate_of_insufficient g b h
    have hsi : (g.isStalemate b || g.insufficientMaterial b) = true := by
      rcases hd with h | h <;> simp [h]
    constructor
    · simp [Chat.evaluate_board, hcm, hsi]
    · simp [Goog.evaluate_board, hcm, hsi]

/-- Witness for C3 at concrete positions: a Black-to-move checkmate, a
White-to-move checkmate, a stalemate and an insufficient-material
position. -/
theorem c3_terminal_scoring_witness :
    (Chat.evaluate_board gMateB [] = 100000
      ∧ Goog.evaluate_board gMateB [] = 1000)
    ∧ (Chat.evaluate_board gMateW [] = -100000
      ∧ Goog.evaluate_board gMateW [] = -1000)
    ∧ (Chat.evaluate_board gStale [] = 0 ∧ Goog.evaluate_board gStale [] = 0)
    ∧ (Chat.evaluate_board gInsuf [] = 0 ∧ Goog.evaluate_board gInsuf [] = 0) := by
  refine ⟨?_, ?_, ?_, ?_⟩
  · have h := (c3_terminal_scoring gMateB []).1 (by decide)
    simpa using h
  · have h := (c3_terminal_scoring gMateW []).1 (by decide)
    simpa using h
  · exact (c3_terminal_scoring gStale []).2 (Or.inl (by decide))
  · exact (c3_terminal_scoring gInsuf []).2 (Or.inr (by decide))

/-! ## Opening book behaviour (claims C10, C8, C5) -/

/-- C10: a board with exactly one played move that is not a book key
makes `get_opening_move` raise (`random.choice` on the empty list), and
`best_move_minimax` — which consults the book while
`fullmove_number <= 2` — propagates that exception instead of returning
a move or `None`. -/
theorem c10_opening_book_raise {P M : Type} (g : Game P M) (b : P)
    (d r : Nat) (m0 : String)
    (h1 : (g.moveStack b).map g.uci = [m0])
    (h2 : Chat.opening_book.lookup m0 = none)
    (h3 : g.fullmoveNumber b ≤ 2) :
    Chat.get_opening_move g b r = .error ()
      ∧ Chat.best_move_minimax g b d r = .error () := by
  have hg : Chat.get_opening_move g b r = .error () := by
    simp [Chat.get_opening_move, h1, h2, pyChoice, Except.map]
  refine ⟨hg, ?_⟩
  simp [Chat.best_move_minimax, h3, hg]

/-- Witness for C10: one non-book move `a2a3` has been played. -/
theorem c10_opening_book_raise_witness :
    Chat.get_opening_move gB ["a2a3"] 0 = .error ()
      ∧ Chat.best_move_minimax gB ["a2a3"] 4 0 = .error () :=
  c10_opening_book_raise gB ["a2a3"] 4 0 "a2a3" (by decide) (by decide) (by decide)

/-- Counterexample to C8: on a live, non-terminal position whose
one-move history is not a book key, the strategy does not delegate to
the fallback search — it raises. -/
theorem c8_counterexample :
    gB.isGameOver ["a2a3"] = false
      ∧ Chat.opening_book.lookup "a2a3" = none
      ∧ Chat.best_move_minimax gB ["a2a3"] 4 7 = .error () := by
  refine ⟨by decide, by decide, ?_⟩
  exact (c10_opening_book_raise gB ["a2a3"] 4 7 "a2a3" (by decide) (by decide)
    (by decide)).2

/-- C8 as amended: with at least two moves of history, or past full
move 2, `best_move_minimax` delegates to the search loop; with a
one-move history that hits the book it returns the book suggestion
selected by the entropy, converted by `from_uci` with no legality
check. -/
theorem c8_book_then_search {P M : Type} (g : Game P M) (b : P) (d r : Nat) :
    (∀ x y l, (g.moveStack b).map g.uci = x :: y :: l →
      g.fullmoveNumber b ≤ 2 →
      Chat.best_move_minimax g b d r
        = .ok (Chat.bm_loop g d b (Chat.order_moves g b) ⊥ none))
    ∧ (2 < g.fullmoveNumber b →
      Chat.best_move_minimax g b d r
        = .ok (Chat.bm_loop g d b (Chat.order_moves g b) ⊥ none))
    ∧ (∀ m0 x xs, (g.moveStack b).map g.uci = [m0] →
      Chat.opening_book.lookup m0 = some (x :: xs) →
      g.fullmoveNumber b ≤ 2 →
      Chat.best_move_minimax g b d r
        = .ok (some (g.fromUci ((x :: xs).get
            ⟨r % (x :: xs).length, Nat.mod_lt _ (Nat.succ_pos _)⟩)))) := by
  refine ⟨?_, ?_, ?_⟩
  · intro x y l h1 h2
    have hg : Chat.get_opening_move g b r = .ok none := by
      simp [Chat.get_opening_move, h1]
    simp [Chat.best_move_minimax, h2, hg]
  · intro h
    simp [Chat.best_move_minimax, Nat.not_le.mpr h]
  · intro m0 x xs h1 h2 h3
    have hg : Chat.get_opening_move g b r
        = .ok (some ((x :: xs).get
            ⟨r % (x :: xs).length, Nat.mod_lt _ (Nat.succ_pos _)⟩)) := by
      simp [Chat.get_opening_move, h1, h2, pyChoice, Except.map]
    simp [Chat.best_move_minimax, h3, hg]

/-- Witness for the amended C8: search delegation after two plies of
history, search use past the book phase, and a concrete book hit
(`1. e4` answered with the entropy-selected response `c7c5`). -/
theorem c8_book_then_search_witness :
    Chat.best_move_minimax gB ["e2e4", "e7e5"] 1 0
      = .ok (Chat.bm_loop gB 1 ["e2e4", "e7e5"]
          (Chat.order_moves gB ["e2e4", "e7e5"]) ⊥ none)
    ∧ Chat.best_move_minimax gX [] 1 7
      = .ok (Chat.bm_loop gX 1 [] (Chat.order_moves gX []) ⊥ none)
    ∧ Chat.best_move_minimax gB ["e2e4"] 4 1 = .ok (some "c7c5") := by
  refine ⟨?_, ?_, ?_⟩
  · exact (c8_book_then_search gB ["e2e4", "e7e5"] 1 0).1 "e2e4" "e7e5" []
      (by decide) (by decide)
  · exact (c8_book_then_search gX [] 1 7).2.1 (by decide)
  · have h := (c8_book_then_search gB ["e2e4"] 4 1).2.2 "e2e4" "e7e5"
      ["c7c5", "e7e6", "c7c6"] (by decide) (by decide) (by decide)
    exact h.trans (by rfl)

/-- Counterexample to C5: on the empty board the ChatGPT-4o strategy
consults the global random source; two calls with the same position and
depth but different hidden entropy return different moves. -/
theorem c5_counterexample :
    Chat.best_move_minimax gB [] 4 0 ≠ Chat.best_move_minimax gB [] 4 1 := by
  have h0 : Chat.best_move_minimax gB [] 4 0 = .ok (some "e2e4") := rfl
  have h1 : Chat.best_move_minimax gB [] 4 1 = .ok (some "d2d4") := rfl
  rw [h0, h1]
  intro hc
  simp at hc

/-- C5 as amended: away from the opening-book phase (full-move number
beyond 2, or at least two moves of history) `best_move_minimax` is
independent of the random source, hence deterministic in the position
and depth. -/
theorem c5_beyond_book_deterministic {P M : Type} (g : Game P M) (b : P)
    (d r1 r2 : Nat)
    (h : 2 < g.fullmoveNumber b ∨ 2 ≤ (g.moveStack b).length) :
    Chat.best_move_minimax g b d r1 = Chat.best_move_minimax g b d r2 := by
  rcases h with h | h
  · simp [Chat.best_move_minimax, Nat.not_le.mpr h]
  · by_cases h2 : g.fullmoveNumber b ≤ 2
    · have hg : ∀ r, Chat.get_opening_move g b r = .ok none := by
        intro r
        obtain ⟨x, y, l, hxy⟩ : ∃ x y l, (g.moveStack b).map g.uci = x :: y :: l := by
          rcases hms : g.moveStack b with _ | ⟨a, rest⟩
          · rw [hms] at h; simp at h
          · rcases hr : rest with _ | ⟨c, t⟩
            · rw [hms, hr] at h; simp at h
            · exact ⟨g.uci a, g.uci c, t.map g.uci, by simp [hms, hr]⟩
        simp [Chat.get_opening_move, hxy]
      simp [Chat.best_move_minimax, h2, hg]
    · simp [Chat.best_move_minimax, h2]

/-- Witness for the amended C5: with two plies of history the entropy
arguments 0 and 99 give the same move. -/
theorem c5_beyond_book_deterministic_witness :
    Chat.best_move_minimax gB ["e2e4", "e7e5"] 1 0
      = Chat.best_move_minimax gB ["e2e4", "e7e5"] 1 99 :=
  c5_beyond_book_deterministic gB ["e2e4", "e7e5"] 1 0 99 (Or.inr (by decide))

/-! ## Simulator termination (claim C7) -/

theorem play_loop_gInf_none :
    ∀ (n : Nat) (b : List String),
      play_loop gInf (fun _ => "m") (fun _ => "m") n b = none := by
  intro n
  induction n with
  | zero => intro b; rfl
  | succ n ih =>
    intro b
    have hgo : gInf.isGameOver b = false := rfl
    simp [play_loop, hgo, ih]

/-- Counterexample to C7: under a rules collaborator that never reports
game over, both `play_game` loops are still running after 1000 plies —
there is no configured maximum ply count, no move-limit parameter and
no "move-limit" draw outcome in either variant. -/
theorem c7_counterexample :
    Goog.play_game gInf (fun _ => "m") (fun _ => "m") 1000 [] = none
      ∧ Chat.play_game gInf (fun _ => "m") (fun _ => "m") 1000 [] = none := by
  constructor
  · simp [Goog.play_game, play_loop_gInf_none]
  · simp [Chat.play_game, play_loop_gInf_none]

/-- C7 as amended: the simulator loop of both variants terminates only
because the position reports game over — whenever it returns a final
position, that position satisfies `is_game_over`; no other exit exists. -/
theorem c7_game_over_only_termination {P M : Type} (g : Game P M)
    (w blk : P → M) :
    ∀ (fuel : Nat) (b bf : P),
      play_loop g w blk fuel b = some bf → g.isGameOver bf = true := by
  intro fuel
  induction fuel with
  | zero => intro b bf h; simp [play_loop] at h
  | succ n ih =>
    intro b bf h
    by_cases hgo : g.isGameOver b
    · simp [play_loop, hgo] at h
      rw [← h]
      exact hgo
    · simp [play_loop, hgo] at h
      exact ih _ _ h

/-- Witness for the amended C7 at a terminal position. -/
theorem c7_game_over_only_termination_witness : gMateB.isGameOver [] = true :=
  c7_game_over_only_termination gMateB (fun _ => "m") (fun _ => "m") 1 [] []
    (by decide)

/-! ## Outcome-rate conservation (claim C6) -/

theorem count_tri :
    ∀ (l : List ℤ), (∀ r ∈ l, r = 1 ∨ r = -1 ∨ r = 0) →
      l.countP (fun r => r = 1) + l.countP (fun r => r = -1)
        + l.countP (fun r => r = 0) = l.length := by
  intro l
  induction l with
  | nil => intro _; rfl
  | cons a l ih =>
    intro h
    have ha := h a (List.mem_cons_self a l)
    have hl := ih (fun r hr => h r (List.mem_cons_of_mem a hr))
    simp only [List.countP_cons, List.length_cons]
    rcases ha with ha | ha | ha <;> subst ha <;> simp <;> omega

theorem count_keys :
    ∀ (keys : List (Option String)),
      keys.countP (fun k => k = some "1-0")
        + keys.countP (fun k => k = some "0-1")
        + keys.countP (fun k => !Goog.isWinKey k)
        = keys.length := by
  intro keys
  induction keys with
  | nil => rfl
  | cons k keys ih =>
    simp only [List.countP_cons, List.length_cons]
    by_cases h1 : k = some "1-0"
    · simp [Goog.isWinKey, h1] at ih ⊢
      omega
    · by_cases h2 : k = some "0-1"
      · simp [Goog.isWinKey, h1, h2] at ih ⊢
        omega
      · simp [Goog.isWinKey, h1, h2] at ih ⊢
        omega

theorem rates_sum (w b dr n : Nat) (hn : 0 < n) (hw : w + b + dr = n) :
    (w : ℚ) / (n : ℚ) * 100 + (b : ℚ) / (n : ℚ) * 100
      + (dr : ℚ) / (n : ℚ) * 100 = 100 := by
  have hne : (n : ℚ) ≠ 0 := Nat.cast_ne_zero.mpr hn.ne'
  have hq : (w : ℚ) + (b : ℚ) + (dr : ℚ) = (n : ℚ) := by exact_mod_cast hw
  field_simp
  linarith [hq]

/-- C6: for any run of `n > 0` games, both aggregators report the
first-player-win, second-player-win and draw rates as
`count / n * 100`; the three rates sum to exactly 100 (in exact
rational arithmetic) and each underlying count is an integer in
`[0, n]`.  For the GoogleSearch variant the divisor `total_games`
computed from the counter equals `n` because `run_simulation` records
exactly one key per game. -/
theorem c6_rate_conservation (n : Nat) (results : List ℤ)
    (games : List (String × Option String)) (hn : 0 < n)
    (hlen : results.length = n)
    (hmem : ∀ r ∈ results, r = 1 ∨ r = -1 ∨ r = 0)
    (hglen : games.length = n) :
    ((Chat.win_rates n results).1
        = (results.countP (fun r => r = 1) : ℚ) / (n : ℚ) * 100
      ∧ (Chat.win_rates n results).2.1
        = (results.countP (fun r => r = -1) : ℚ) / (n : ℚ) * 100
      ∧ (Chat.win_rates n results).2.2
        = (results.countP (fun r => r = 0) : ℚ) / (n : ℚ) * 100
      ∧ (Chat.win_rates n results).1 + (Chat.win_rates n results).2.1
          + (Chat.win_rates n results).2.2 = 100
      ∧ results.countP (fun r => r = 1) ≤ n
      ∧ results.countP (fun r => r = -1) ≤ n
      ∧ results.countP (fun r => r = 0) ≤ n)
    ∧ ((Goog.run_keys games).countP (fun k => k = some "1-0")
          + (Goog.run_keys games).countP (fun k => k = some "0-1")
          + (Goog.run_keys games).countP (fun k => !Goog.isWinKey k) = n
      ∧ (Goog.calculate_win_rate (Goog.run_keys games)).1
          = ((Goog.run_keys games).countP (fun k => k = some "1-0") : ℚ)
              / (n : ℚ) * 100
      ∧ (Goog.calculate_win_rate (Goog.run_keys games)).2.1
          = ((Goog.run_keys games).countP (fun k => k = some "0-1") : ℚ)
              / (n : ℚ) * 100
      ∧ (Goog.calculate_win_rate (Goog.run_keys games)).2.2
          = ((Goog.run_keys games).countP (fun k => !Goog.isWinKey k) : ℚ)
              / (n : ℚ) * 100
      ∧ (Goog.calculate_win_rate (Goog.run_keys games)).1
          + (Goog.calculate_win_rate (Goog.run_keys games)).2.1
          + (Goog.calculate_win_rate (Goog.run_keys games)).2.2 = 100
      ∧ (Goog.run_keys games).countP (fun k => k = some "1-0") ≤ n
      ∧ (Goog.run_keys games).countP (fun k => k = some "0-1") ≤ n
      ∧ (Goog.run_keys games).countP (fun k => !Goog.isWinKey k) ≤ n) := by
  have hkl : (Goog.run_keys games).length = n := by
    simp [Goog.run_keys, hglen]
  have htot : (Goog.run_keys games).countP (fun k => k = some "1-0")
      + (Goog.run_keys games).countP (fun k => k = some "0-1")
      + (Goog.run_keys games).countP (fun k => !Goog.isWinKey k) = n :=
    (count_keys (Goog.run_keys games)).trans hkl
  have htri := (count_tri results hmem).trans hlen
  constructor
  · refine ⟨rfl, rfl, rfl, ?_, ?_, ?_, ?_⟩
    · exact rates_sum _ _ _ n hn htri
    · exact hlen ▸ List.countP_le_length _
    · exact hlen ▸ List.countP_le_length _
    · exact hlen ▸ List.countP_le_length _
  · refine ⟨htot, ?_, ?_, ?_, ?_, ?_, ?_, ?_⟩
    · show ((Goog.run_keys games).countP (fun k => k = some "1-0") : ℚ)
          / (((Goog.run_keys games).countP (fun k => k = some "1-0")
              + (Goog.run_keys games).countP (fun k => k = some "0-1")
              + (Goog.run_keys games).countP (fun k => !Goog.isWinKey k) : Nat) : ℚ)
          * 100 = _
      rw [htot]
    · show ((Goog.run_keys games).countP (fun k => k = some "0-1") : ℚ)
          / (((Goog.run_keys games).countP (fun k => k = some "1-0")
              + (Goog.run_keys games).countP (fun k => k = some "0-1")
              + (Goog.run_keys games).countP (fun k => !Goog.isWinKey k) : Nat) : ℚ)
          * 100 = _
      rw [htot]
    · show ((Goog.run_keys games).countP (fun k => !Goog.isWinKey k) : ℚ)
          / (((Goog.run_keys games).countP (fun k => k = some "1-0")
              + (Goog.run_keys games).countP (fun k => k = some "0-1")
              + (Goog.run_keys games).countP (fun k => !Goog.isWinKey k) : Nat) : ℚ)
          * 100 = _
      rw [htot]
    · have h1 : (Goog.calculate_win_rate (Goog.run_keys games)).1
          = ((Goog.run_keys games).countP (fun k => k = some "1-0") : ℚ)
              / (n : ℚ) * 100 := by
        show _ / (((Goog.run_keys games).countP (fun k => k = some "1-0")
            + (Goog.run_keys games).countP (fun k => k = some "0-1")
            + (Goog.run_keys games).countP (fun k => !Goog.isWinKey k) : Nat) : ℚ)
            * 100 = _
        rw [htot]
      have h2 : (Goog.calculate_win_rate (Goog.run_keys games)).2.1
          = ((Goog.run_keys games).countP (fun k => k = some "0-1") : ℚ)
              / (n : ℚ) * 100 := by
        show _ / (((Goog.run_keys games).countP (fun k => k = some "1-0")
            + (Goog.run_keys games).countP (fun k => k = some "0-1")
            + (Goog.run_keys games).countP (fun k => !Goog.isWinKey k) : Nat) : ℚ)
            * 100 = _
        rw [htot]
      have h3 : (Goog.calculate_win_rate (Goog.run_keys games)).2.2
          = ((Goog.run_keys games).countP (fun k => !Goog.isWinKey k) : ℚ)
              / (n : ℚ) * 100 := by
        show _ / (((Goog.run_keys games).countP (fun k => k = some "1-0")
            + (Goog.run_keys games).countP (fun k => k = some "0-1")
            + (Goog.run_keys games).countP (fun k => !Goog.isWinKey k) : Nat) : ℚ)
            * 100 = _
        rw [htot]
      rw [h1, h2, h3]
      exact rates_sum _ _ _ n hn htot
    · omega
    · omega
    · omega

/-- Witness for C6 on a four-game run (two white wins by mate, one
black win by mate, one stalemate draw). -/
theorem c6_rate_conservation_witness :
    (Chat.win_rates 4 [1, -1, 0, 1]).1 + (Chat.win_rates 4 [1, -1, 0, 1]).2.1
        + (Chat.win_rates 4 [1, -1, 0, 1]).2.2 = 100
    ∧ (Goog.calculate_win_rate (Goog.run_keys
          [("1-0", some "is_checkmate"), ("0-1", some "is_checkmate"),
           ("1/2-1/2", some "is_stalemate"), ("1-0", some "is_checkmate")])).1
        + (Goog.calculate_win_rate (Goog.run_keys
          [("1-0", some "is_checkmate"), ("0-1", some "is_checkmate"),
           ("1/2-1/2", some "is_stalemate"), ("1-0", some "is_checkmate")])).2.1
        + (Goog.calculate_win_rate (Goog.run_keys
          [("1-0", some "is_checkmate"), ("0-1", some "is_checkmate"),
           ("1/2-1/2", some "is_stalemate"), ("1-0", some "is_checkmate")])).2.2
        = 100 := by
  have h := c6_rate_conservation 4 [1, -1, 0, 1]
    [("1-0", some "is_checkmate"), ("0-1", some "is_checkmate"),
     ("1/2-1/2", some "is_stalemate"), ("1-0", some "is_checkmate")]
    (by decide) (by decide) (by decide) (by decide)
  exact ⟨h.1.2.2.2.1, h.2.2.2.2.2.1⟩

/-! ## Random strategies (claim C9) -/

/-- Counterexample to C9: at a position with one capture (`cap`) and
one quiet legal move (`quiet`), the GoogleSearch `random_move` never
returns the quiet move for any shuffle outcome and any choice entropy —
the capture is returned every time, so the legal moves are not equally
likely. -/
theorem c9_counterexample :
    gC9.legalMoves [] = ["cap", "quiet"]
    ∧ ((([["cap", "quiet"], ["quiet", "cap"]] : List (List String)).map (fun sh =>
        (List.range 2).map (fun r =>
          (Goog.random_move gC9 [] sh r).toOption))).flatten.countP
      (fun x => x = some "quiet") = 0)
    ∧ ((([["cap", "quiet"], ["quiet", "cap"]] : List (List String)).map (fun sh =>
        (List.range 2).map (fun r =>
          (Goog.random_move gC9 [] sh r).toOption))).flatten.countP
      (fun x => x = some "cap") = 4)
    ∧ "quiet" ∈ gC9.legalMoves [] := by
  refine ⟨rfl, ?_, ?_, by decide⟩
  · rfl
  · rfl

/-- C9 as amended: the ChatGPT-4o `random_move` does sample uniformly
from the full legal-move list (as the entropy sweeps the indices, the
outputs enumerate the legal moves exactly), while the GoogleSearch
`random_move` prefers captures: whenever any capture is legal it
returns a capture; both read the global `random` module rather than an
injected source. -/
theorem c9_random_strategies {P M : Type} (g : Game P M) (b : P) :
    ((List.range (g.legalMoves b).length).map (fun r => Chat.random_move g b r)
        = (g.legalMoves b).map Except.ok)
    ∧ (∀ (shuffled : List M) (r : Nat), shuffled.Perm (g.legalMoves b) →
        (∃ cm ∈ g.legalMoves b, g.isCapture b cm = true) →
        ∃ mv, Goog.random_move g b shuffled r = .ok mv
          ∧ g.isCapture b mv = true ∧ mv ∈ g.legalMoves b) := by
  constructor
  · rcases hleg : g.legalMoves b with _ | ⟨x, xs⟩
    · rfl
    · apply List.ext_get
      · simp
      · intro i h1 h2
        simp only [List.length_map, List.length_range] at h1
        have hi : i % (x :: xs).length = i := Nat.mod_eq_of_lt h1
        simp only [List.get_map, List.get_range, Chat.random_move, hleg,
          pyChoice, hi]
  · intro shuffled r hperm ⟨cm, hcm, hcap⟩
    have hcm2 : cm ∈ shuffled := hperm.mem_iff.mpr hcm
    have hcm3 : cm ∈ shuffled.filter (fun m => g.isCapture b m) :=
      List.mem_filter.mpr ⟨hcm2, hcap⟩
    rcases hfl : shuffled.filter (fun m => g.isCapture b m) with _ | ⟨x, xs⟩
    · rw [hfl] at hcm3; simp at hcm3
    · have hres : Goog.random_move g b shuffled r
          = .ok ((x :: xs).get ⟨r % (x :: xs).length, Nat.mod_lt _ (Nat.succ_pos _)⟩) := by
        simp only [Goog.random_move, hfl, List.isEmpty_cons, pyChoice,
          Bool.false_eq_true, ite_false]
      refine ⟨_, hres, ?_, ?_⟩
      · have hmem : (x :: xs).get ⟨r % (x :: xs).length, Nat.mod_lt _ (Nat.succ_pos _)⟩
            ∈ shuffled.filter (fun m => g.isCapture b m) := by
          rw [hfl]; exact List.get_mem _ _ _
        exact (List.mem_filter.mp hmem).2
      · have hmem : (x :: xs).get ⟨r % (x :: xs).length, Nat.mod_lt _ (Nat.succ_pos _)⟩
            ∈ shuffled.filter (fun m => g.isCapture b m) := by
          rw [hfl]; exact List.get_mem _ _ _
        exact hperm.mem_iff.mp (List.mem_of_mem_filter hmem)

/-- Witness for the amended C9: uniform enumeration on the two-move
position, and the capture-preference on a shuffle that lists the quiet
move first. -/
theorem c9_random_strategies_witness :
    ((List.range (gC9.legalMoves []).length).map (fun r => Chat.random_move gC9 [] r)
        = (gC9.legalMoves []).map Except.ok)
    ∧ (∃ mv, Goog.random_move gC9 [] ["quiet", "cap"] 0 = .ok mv
        ∧ gC9.isCapture [] mv = true ∧ mv ∈ gC9.legalMoves []) := by
  constructor
  · exact (c9_random_strategies gC9 []).1
  · exact (c9_random_strategies gC9 []).2 ["quiet", "cap"] 0 (by decide)
      ⟨"cap", by decide, by decide⟩

/-! ## Root move selection (claim C2) -/

theorem le_listSup {M : Type} (f : M → Score) :
    ∀ (l : List M) (m : M), m ∈ l → f m ≤ listSup f l := by
  intro l
  induction l with
  | nil => intro m hm; simp at hm
  | cons x xs ih =>
    intro m hm
    rw [listSup_cons]
    rcases List.mem_cons.mp hm with h | h
    · rw [h]; exact le_max_left _ _
    · exact (ih m h).trans (le_max_right _ _)

theorem listInf_le {M : Type} (f : M → Score) :
    ∀ (l : List M) (m : M), m ∈ l → listInf f l ≤ f m := by
  intro l
  induction l with
  | nil => intro m hm; simp at hm
  | cons x xs ih =>
    intro m hm
    rw [listInf_cons]
    rcases List.mem_cons.mp hm with h | h
    · rw [h]; exact min_le_left _ _
    · exact (min_le_right _ _).trans (ih m h)

theorem length_insertDesc {M : Type} (key : M → Nat) (m : M) :
    ∀ l : List M, (insertDesc key m l).length = l.length + 1 := by
  intro l
  induction l with
  | nil => rfl
  | cons x xs ih =>
    show (if key x < key m then m :: x :: xs else x :: insertDesc key m xs).length = _
    split
    · rfl
    · simp [ih]

theorem length_sortDesc_aux {M : Type} (key : M → Nat) :
    ∀ (l acc : List M),
      (l.foldl (fun acc m => insertDesc key m acc) acc).length
        = l.length + acc.length := by
  intro l
  induction l with
  | nil => intro acc; simp
  | cons m ms ih =>
    intro acc
    show (ms.foldl (fun acc m => insertDesc key m acc) (insertDesc key m acc)).length = _
    rw [ih, length_insertDesc]
    simp
    omega

theorem length_sortDesc {M : Type} (key : M → Nat) (l : List M) :
    (sortDesc key l).length = l.length := by
  show (l.foldl (fun acc m => insertDesc key m acc) []).length = _
  rw [length_sortDesc_aux]
  rfl

theorem order_moves_ne_nil {P M : Type} (g : Game P M) (p : P)
    (h : g.legalMoves p ≠ []) : Chat.order_moves g p ≠ [] := by
  intro hc
  apply h
  have := length_sortDesc (Chat.move_priority g p) (g.legalMoves p)
  rw [show sortDesc (Chat.move_priority g p) (g.legalMoves p) = Chat.order_moves g p from rfl,
    hc] at this
  exact List.length_eq_zero.mp this.symm

theorem ab_loop_fin {P M : Type} (g : Game P M)
    (rec : P → Score → Score → Score) (maxi : Bool) (b : P)
    (hrec : ∀ p a2 b2, ∃ q : ℚ, rec p a2 b2 = sval q) :
    ∀ (ms : List M) (best al bt : Score) (q0 : ℚ), best = sval q0 →
      ∃ q, ab_loop g rec maxi b ms best al bt = sval q := by
  intro ms
  induction ms with
  | nil => intro best al bt q0 h; exact ⟨q0, h⟩
  | cons m ms ih =>
    intro best al bt q0 hbest
    obtain ⟨q1, hq1⟩ := hrec (g.push b m) al bt
    cases maxi with
    | true =>
      have hq2 : ∃ q2, max best (rec (g.push b m) al bt) = sval q2 := by
        rcases max_choice best (rec (g.push b m) al bt) with h | h
        · exact ⟨q0, h.trans hbest⟩
        · exact ⟨q1, h.trans hq1⟩
      obtain ⟨q2, hq2⟩ := hq2
      simp only [ab_loop, eq_self_iff_true, if_true]
      split
      · exact ⟨q2, hq2⟩
      · exact ih _ _ _ q2 hq2
    | false =>
      have hq2 : ∃ q2, min best (rec (g.push b m) al bt) = sval q2 := by
        rcases min_choice best (rec (g.push b m) al bt) with h | h
        · exact ⟨q0, h.trans hbest⟩
        · exact ⟨q1, h.trans hq1⟩
      obtain ⟨q2, hq2⟩ := hq2
      simp only [ab_loop, Bool.false_eq_true, if_false]
      split
      · exact ⟨q2, hq2⟩
      · exact ih _ _ _ q2 hq2

theorem abSearch_fin {P M : Type} (g : Game P M) (mv : P → List M)
    (ev : P → ℚ) (hmv : ∀ p, g.isGameOver p = false → mv p ≠ []) :
    ∀ (d : Nat) (b : P) (al bt : Score) (maxi : Bool),
      ∃ q, abSearch g mv ev d b al bt maxi = sval q := by
  intro d
  induction d with
  | zero => intro b al bt maxi; exact ⟨ev b, rfl⟩
  | succ d ihd =>
    intro b al bt maxi
    by_cases hgo : g.isGameOver b
    · exact ⟨ev b, by simp [abSearch, hgo]⟩
    · have hgo2 : g.isGameOver b = false := by
        simp only [Bool.not_eq_true] at hgo; exact hgo
      rcases hms : mv b with _ | ⟨m, ms⟩
      · exact absurd hms (hmv b hgo2)
      · obtain ⟨q1, hq1⟩ := ihd (g.push b m) al bt (!maxi)
        have e1 : abSearch g mv ev (d + 1) b al bt maxi
            = ab_loop g (fun p a2 b2 => abSearch g mv ev d p a2 b2 (!maxi))
                maxi b (m :: ms) (if maxi then ⊥ else ⊤) al bt := by
          simp [abSearch, hgo2, hms]
        rw [e1]
        cases maxi with
        | true =>
          have hb2 : max (⊥ : Score) (abSearch g mv ev d (g.push b m) al bt (!true))
              = sval q1 := by rw [score_bot_max, hq1]
          simp only [ab_loop, eq_self_iff_true, if_true, ite_true]
          split
          · exact ⟨q1, hb2⟩
          · exact ab_loop_fin g _ true b (fun p a2 b2 => ihd p a2 b2 false)
              ms _ _ _ q1 (by rw [← hb2])
        | false =>
          have hb2 : min (⊤ : Score) (abSearch g mv ev d (g.push b m) al bt (!false))
              = sval q1 := by rw [score_top_min, hq1]
          simp only [ab_loop, Bool.false_eq_true, if_false, ite_false]
          split
          · exact ⟨q1, hb2⟩
          · exact ab_loop_fin g _ false b (fun p a2 b2 => ihd p a2 b2 true)
              ms _ _ _ q1 (by rw [← hb2])

theorem firstMaxBy_isSome {M : Type} (f : M → Score) (m : M) (ms : List M) :
    (firstMaxBy f (m :: ms)).isSome = true := by
  cases h : firstMaxBy f ms <;> simp [firstMaxBy, h] <;> split <;> simp

theorem firstMinBy_isSome {M : Type} (f : M → Score) (m : M) (ms : List M) :
    (firstMinBy f (m :: ms)).isSome = true := by
  cases h : firstMinBy f ms <;> simp [firstMinBy, h] <;> split <;> simp

theorem firstMaxBy_val {M : Type} (f : M → Score) :
    ∀ (ms : List M) (m2 : M), firstMaxBy f ms = some m2 → f m2 = listSup f ms := by
  intro ms
  induction ms with
  | nil => intro m2 h; simp [firstMaxBy] at h
  | cons m ms ih =>
    intro m2 h
    rw [listSup_cons]
    cases hm : firstMaxBy f ms with
    | none =>
      have hnil : ms = [] := by
        cases ms with
        | nil => rfl
        | cons x xs => have := firstMaxBy_isSome f x xs; rw [hm] at this; simp at this
      subst hnil
      simp only [firstMaxBy] at h
      cases h
      simp [listSup, score_max_bot]
    | some m3 =>
      have hv := ih m3 hm
      simp only [firstMaxBy, hm] at h
      by_cases hle : f m3 ≤ f m
      · rw [if_pos hle] at h
        cases h
        rw [← hv]
        exact (max_eq_left hle).symm
      · rw [if_neg hle] at h
        cases h
        rw [← hv]
        exact (max_eq_right (le_of_not_le hle)).symm

theorem firstMinBy_val {M : Type} (f : M → Score) :
    ∀ (ms : List M) (m2 : M), firstMinBy f ms = some m2 → f m2 = listInf f ms := by
  intro ms
  induction ms with
  | nil => intro m2 h; simp [firstMinBy] at h
  | cons m ms ih =>
    intro m2 h
    rw [listInf_cons]
    cases hm : firstMinBy f ms with
    | none =>
      have hnil : ms = [] := by
        cases ms with
        | nil => rfl
        | cons x xs => have := firstMinBy_isSome f x xs; rw [hm] at this; simp at this
      subst hnil
      simp only [firstMinBy] at h
      cases h
      simp [listInf, score_min_top]
    | some m3 =>
      have hv := ih m3 hm
      simp only [firstMinBy, hm] at h
      by_cases hle : f m ≤ f m3
      · rw [if_pos hle] at h
        cases h
        rw [← hv]
        exact (min_eq_left hle).symm
      · rw [if_neg hle] at h
        cases h
        rw [← hv]
        exact (min_eq_right (le_of_not_le hle)).symm

theorem firstMaxBy_eq_none {M : Type} (f : M → Score) :
    ∀ ms : List M, firstMaxBy f ms = none → ms = [] := by
  intro ms h
  cases ms with
  | nil => rfl
  | cons x xs =>
    have := firstMaxBy_isSome f x xs
    rw [h] at this
    simp at this

theorem firstMinBy_eq_none {M : Type} (f : M → Score) :
    ∀ ms : List M, firstMinBy f ms = none → ms = [] := by
  intro ms h
  cases ms with
  | nil => rfl
  | cons x xs =>
    have := firstMinBy_isSome f x xs
    rw [h] at this
    simp at this

/-- The strict-improvement scan returns the first move attaining the
maximum of `f`, unless no move beats the seed, in which case the move
carried with the seed is returned. -/
theorem scanMax_spec {M : Type} (f : M → Score) :
    ∀ (ms : List M) (be : Score) (bm : Option M),
      scanMax f ms be bm
        = if listSup f ms ≤ be then bm else firstMaxBy f ms := by
  intro ms
  induction ms with
  | nil =>
    intro be bm
    simp [scanMax, listSup, bot_le]
  | cons m ms ih =>
    intro be bm
    rw [listSup_cons]
    simp only [scanMax]
    by_cases hlt : be < f m
    · rw [if_pos hlt, ih]
      have hcond : ¬(max (f m) (listSup f ms) ≤ be) :=
        fun hc => absurd ((le_max_left _ _).trans hc) (not_le.mpr hlt)
      rw [if_neg hcond]
      by_cases h2 : listSup f ms ≤ f m
      · rw [if_pos h2]
        cases hm : firstMaxBy f ms with
        | none =>
          have hnil := firstMaxBy_eq_none f ms hm
          subst hnil
          simp [firstMaxBy]
        | some m3 =>
          have hv := firstMaxBy_val f ms m3 hm
          simp only [firstMaxBy, hm]
          rw [if_pos (hv.le.trans h2)]
      · rw [if_neg h2]
        cases hm : firstMaxBy f ms with
        | none =>
          have hnil := firstMaxBy_eq_none f ms hm
          subst hnil
          exact absurd bot_le h2
        | some m3 =>
          have hv := firstMaxBy_val f ms m3 hm
          simp only [firstMaxBy, hm]
          rw [if_neg (fun hc => h2 (hv ▸ hc))]
    · rw [if_neg hlt, ih]
      have hbe : f m ≤ be := not_lt.mp hlt
      by_cases h2 : listSup f ms ≤ be
      · rw [if_pos h2, if_pos (max_le hbe h2)]
      · rw [if_neg h2]
        have hcond : ¬(max (f m) (listSup f ms) ≤ be) :=
          fun hc => h2 ((le_max_right _ _).trans hc)
        rw [if_neg hcond]
        cases hm : firstMaxBy f ms with
        | none =>
          have hnil := firstMaxBy_eq_none f ms hm
          subst hnil
          exact absurd bot_le h2
        | some m3 =>
          have hv := firstMaxBy_val f ms m3 hm
          simp only [firstMaxBy, hm]
          rw [if_neg (fun hc => h2 (hv ▸ (hc.trans hbe)))]

/-- Dual characterization of the strict-worsening scan. -/
theorem scanMin_spec {M : Type} (f : M → Score) :
    ∀ (ms : List M) (be : Score) (bm : Option M),
      scanMin f ms be bm
        = if be ≤ listInf f ms then bm else firstMinBy f ms := by
  intro ms
  induction ms with
  | nil =>
    intro be bm
    simp [scanMin, listInf, le_top]
  | cons m ms ih =>
    intro be bm
    rw [listInf_cons]
    simp only [scanMin]
    by_cases hlt : f m < be
    · rw [if_pos hlt, ih]
      have hcond : ¬(be ≤ min (f m) (listInf f ms)) :=
        fun hc => absurd (hc.trans (min_le_left _ _)) (not_le.mpr hlt)
      rw [if_neg hcond]
      by_cases h2 : f m ≤ listInf f ms
      · rw [if_pos h2]
        cases hm : firstMinBy f ms with
        | none =>
          have hnil := firstMinBy_eq_none f ms hm
          subst hnil
          simp [firstMinBy]
        | some m3 =>
          have hv := firstMinBy_val f ms m3 hm
          simp only [firstMinBy, hm]
          rw [if_pos (h2.trans hv.ge)]
      · rw [if_neg h2]
        cases hm : firstMinBy f ms with
        | none =>
          have hnil := firstMinBy_eq_none f ms hm
          subst hnil
          exact absurd le_top h2
        | some m3 =>
          have hv := firstMinBy_val f ms m3 hm
          simp only [firstMinBy, hm]
          rw [if_neg (fun hc => h2 (hv ▸ hc))]
    · rw [if_neg hlt, ih]
      have hbe : be ≤ f m := not_lt.mp hlt
      by_cases h2 : be ≤ listInf f ms
      · rw [if_pos h2, if_pos (le_min hbe h2)]
      · rw [if_neg h2]
        have hcond : ¬(be ≤ min (f m) (listInf f ms)) :=
          fun hc => h2 (hc.trans (min_le_right _ _))
        rw [if_neg hcond]
        cases hm : firstMinBy f ms with
        | none =>
          have hnil := firstMinBy_eq_none f ms hm
          subst hnil
          exact absurd le_top h2
        | some m3 =>
          have hv := firstMinBy_val f ms m3 hm
          simp only [firstMinBy, hm]
          rw [if_neg (fun hc => h2 (hv ▸ (hbe.trans hc)))]

theorem chat_bm_loop_eq_scanMax {P M : Type} (g : Game P M) (d : Nat) (b : P) :
    ∀ (ms : List M) (be : Score) (bm : Option M),
      Chat.bm_loop g d b ms be bm
        = scanMax (fun m => Chat.minimax g (d - 1) (g.push b m) ⊥ ⊤ false)
            ms be bm := by
  intro ms
  induction ms with
  | nil => intro be bm; rfl
  | cons m ms ih =>
    intro be bm
    simp only [Chat.bm_loop, scanMax]
    split
    · exact ih _ _
    · exact ih _ _

theorem goog_bm_loop_white {P M : Type} (g : Game P M) (d : Nat) (b : P)
    (ht : g.turn b = true) :
    ∀ (ms : List M) (be : Score) (bm : Option M),
      Goog.bm_loop g d b ms be bm
        = scanMax (fun m =>
            Goog.minimax g (d - 1) (g.push b m) ⊥ ⊤ (!(g.turn (g.push b m))))
            ms be bm := by
  intro ms
  induction ms with
  | nil => intro be bm; rfl
  | cons m ms ih =>
    intro be bm
    simp only [Goog.bm_loop, scanMax, ht, Bool.true_and, Bool.not_true,
      Bool.false_and, Bool.or_false, decide_eq_true_eq]
    split
    · exact ih _ _
    · exact ih _ _

theorem goog_bm_loop_black {P M : Type} (g : Game P M) (d : Nat) (b : P)
    (ht : g.turn b = false) :
    ∀ (ms : List M) (be : Score) (bm : Option M),
      Goog.bm_loop g d b ms be bm
        = scanMin (fun m =>
            Goog.minimax g (d - 1) (g.push b m) ⊥ ⊤ (!(g.turn (g.push b m))))
            ms be bm := by
  intro ms
  induction ms with
  | nil => intro be bm; rfl
  | cons m ms ih =>
    intro be bm
    simp only [Goog.bm_loop, scanMin, ht, Bool.false_and, Bool.not_false,
      Bool.true_and, Bool.false_or, decide_eq_true_eq]
    split
    · exact ih _ _
    · exact ih _ _

theorem chat_minimax_fin {P M : Type} (g : Game P M) (d : Nat) (b : P)
    (al bt : Score) (maxi : Bool) :
    ∃ q, Chat.minimax g d b al bt maxi = sval q := by
  rw [chat_minimax_eq_abSearch]
  exact abSearch_fin g _ _
    (fun p hp => order_moves_ne_nil g p
      (fun he => by simp [g.no_moves_over p he] at hp)) d b al bt maxi

theorem goog_minimax_fin {P M : Type} (g : Game P M) (d : Nat) (b : P)
    (al bt : Score) (maxi : Bool) :
    ∃ q, Goog.minimax g d b al bt maxi = sval q := by
  rw [goog_minimax_eq_abSearch]
  exact abSearch_fin g _ _
    (fun p hp he => by simp [g.no_moves_over p he] at hp) d b al bt maxi

/-- Counterexample to C2: with Black (the minimizing side under the
white-positive convention) to move, the ChatGPT-4o `best_move_minimax`
returns the move with the strictly larger white-positive child score
rather than the smaller one. -/
theorem c2_counterexample :
    gX.turn [] = false
    ∧ Chat.best_move_minimax gX [] 1 0 = .ok (some "a")
    ∧ Chat.minimax gX 0 (gX.push [] "b") ⊥ ⊤ false
        < Chat.minimax gX 0 (gX.push [] "a") ⊥ ⊤ false := by
  refine ⟨rfl, by rfl, by decide⟩

/-- C2 as amended: on a non-terminal position with a positive depth,
the GoogleSearch `best_move` returns the first legal move (in
enumeration order) attaining the maximum child score when White is to
move and the minimum when Black is to move; the ChatGPT-4o
`best_move_minimax` (past the book phase) always returns the first
move attaining the maximum white-positive child score, regardless of
the side to move.  Ties go to the earlier move in the respective move
order. -/
theorem c2_best_move_selection {P M : Type} (g : Game P M) (b : P) (d : Nat)
    (hd : 1 ≤ d) (hgo : g.isGameOver b = false) :
    (g.turn b = true →
      Goog.best_move g b d
        = firstMaxBy (fun m =>
            Goog.minimax g (d - 1) (g.push b m) ⊥ ⊤ (!(g.turn (g.push b m))))
            (g.legalMoves b))
    ∧ (g.turn b = false →
      Goog.best_move g b d
        = firstMinBy (fun m =>
            Goog.minimax g (d - 1) (g.push b m) ⊥ ⊤ (!(g.turn (g.push b m))))
            (g.legalMoves b))
    ∧ (2 < g.fullmoveNumber b → ∀ r : Nat,
      Chat.best_move_minimax g b d r
        = .ok (firstMaxBy (fun m => Chat.minimax g (d - 1) (g.push b m) ⊥ ⊤ false)
            (Chat.order_moves g b))) := by
  have hleg : g.legalMoves b ≠ [] :=
    fun he => by simp [g.no_moves_over b he] at hgo
  obtain ⟨m0, ms0, hleg2⟩ := List.exists_cons_of_ne_nil hleg
  refine ⟨?_, ?_, ?_⟩
  · intro ht
    have e1 : Goog.best_move g b d
        = Goog.bm_loop g d b (g.legalMoves b) ⊥ none := by
      simp [Goog.best_move, ht]
    rw [e1, goog_bm_loop_white g d b ht, scanMax_spec]
    obtain ⟨q, hq⟩ := goog_minimax_fin g (d - 1) (g.push b m0) ⊥ ⊤
      (!(g.turn (g.push b m0)))
    have hmem : m0 ∈ g.legalMoves b := by rw [hleg2]; exact List.mem_cons_self m0 ms0
    have hsup : Goog.minimax g (d - 1) (g.push b m0) ⊥ ⊤ (!(g.turn (g.push b m0)))
        ≤ listSup (fun m =>
            Goog.minimax g (d - 1) (g.push b m) ⊥ ⊤ (!(g.turn (g.push b m))))
            (g.legalMoves b) :=
      le_listSup (fun m =>
        Goog.minimax g (d - 1) (g.push b m) ⊥ ⊤ (!(g.turn (g.push b m))))
        (g.legalMoves b) m0 hmem
    rw [hq] at hsup
    rw [if_neg (fun hc => absurd (hsup.trans hc) (not_le.mpr (bot_lt_sval q)))]
  · intro ht
    have e1 : Goog.best_move g b d
        = Goog.bm_loop g d b (g.legalMoves b) ⊤ none := by
      simp [Goog.best_move, ht]
    rw [e1, goog_bm_loop_black g d b ht, scanMin_spec]
    obtain ⟨q, hq⟩ := goog_minimax_fin g (d - 1) (g.push b m0) ⊥ ⊤
      (!(g.turn (g.push b m0)))
    have hmem : m0 ∈ g.legalMoves b := by rw [hleg2]; exact List.mem_cons_self m0 ms0
    have hinf : listInf (fun m =>
            Goog.minimax g (d - 1) (g.push b m) ⊥ ⊤ (!(g.turn (g.push b m))))
            (g.legalMoves b)
        ≤ Goog.minimax g (d - 1) (g.push b m0) ⊥ ⊤ (!(g.turn (g.push b m0))) :=
      listInf_le (fun m =>
        Goog.minimax g (d - 1) (g.push b m) ⊥ ⊤ (!(g.turn (g.push b m))))
        (g.legalMoves b) m0 hmem
    rw [hq] at hinf
    rw [if_neg (fun hc => absurd (hc.trans hinf) (not_le.mpr (sval_lt_top q)))]
  · intro hfm r
    have e1 : Chat.best_move_minimax g b d r
        = .ok (Chat.bm_loop g d b (Chat.order_moves g b) ⊥ none) := by
      simp [Chat.best_move_minimax, Nat.not_le.mpr hfm]
    rw [e1, chat_bm_loop_eq_scanMax g d b, scanMax_spec]
    obtain ⟨mo, mso, hord⟩ :=
      List.exists_cons_of_ne_nil (order_moves_ne_nil g b hleg)
    obtain ⟨q, hq⟩ := chat_minimax_fin g (d - 1) (g.push b mo) ⊥ ⊤ false
    have hmem : mo ∈ Chat.order_moves g b := by
      rw [hord]; exact List.mem_cons_self mo mso
    have hsup : Chat.minimax g (d - 1) (g.push b mo) ⊥ ⊤ false
        ≤ listSup (fun m => Chat.minimax g (d - 1) (g.push b m) ⊥ ⊤ false)
            (Chat.order_moves g b) :=
      le_listSup (fun m => Chat.minimax g (d - 1) (g.push b m) ⊥ ⊤ false)
        (Chat.order_moves g b) mo hmem
    rw [hq] at hsup
    rw [if_neg (fun hc => absurd (hsup.trans hc) (not_le.mpr (bot_lt_sval q)))]

/-- Witness for the amended C2: on the terminal-children tree, the
GoogleSearch best move for White is the max-score move `a` (mate), for
Black the min-score move `b` (stalemate), and the ChatGPT-4o selection for Black
is still the max-score move `a`. -/
theorem c2_best_move_selection_witness :
    Goog.best_move gW2 [] 1 = some "a"
    ∧ Goog.best_move gX2 [] 1 = some "b"
    ∧ Chat.best_move_minimax gX2 [] 1 3 = .ok (some "a") := by
  have hW := (c2_best_move_selection gW2 [] 1 (le_refl 1) rfl).1 rfl
  have hX := (c2_best_move_selection gX2 [] 1 (le_refl 1) rfl).2.1 rfl
  have hC := (c2_best_move_selection gX2 [] 1 (le_refl 1) rfl).2.2 (by decide) 3
  have hWv : firstMaxBy (fun m =>
      Goog.minimax gW2 (1 - 1) (gW2.push [] m) ⊥ ⊤ (!(gW2.turn (gW2.push [] m))))
      (gW2.legalMoves []) = some "a" := by decide
  have hXv : firstMinBy (fun m =>
      Goog.minimax gX2 (1 - 1) (gX2.push [] m) ⊥ ⊤ (!(gX2.turn (gX2.push [] m))))
      (gX2.legalMoves []) = some "b" := by decide
  have hCv : firstMaxBy (fun m => Chat.minimax gX2 (1 - 1) (gX2.push [] m) ⊥ ⊤ false)
      (Chat.order_moves gX2 []) = some "a" := by decide
  exact ⟨hW.trans hWv, hX.trans hXv, hC.trans (by rw [hCv])⟩
